import Mathlib

/-!
Verification of the y0 conditional-independency core
(`src/y0/algorithm/conditional_independencies.py`).

The definitions below are a shallow embedding of the Python source.
Collaborator code that lives outside the provided sources (the `Variable`
identifier type, the `NxMixedGraph` wrapper, the `DSeparationJudgement`
value type, the `powerset` combinatorics helper, and the behaviour of the
`ananke`/`networkx` graph libraries) is modelled from the specification,
as flagged in the doc comments.
-/

namespace Y0

/-- Modelled from the spec: a `Variable` (y0.dsl) is an opaque, hashable,
totally-orderable identifier for a graph node, carrying only a name. -/
structure Variable where
  name : String
deriving DecidableEq, Repr

/-- Modelled from the spec: the `NxMixedGraph` wrapper (y0.graph) is a mixed
graph with directed and bidirected edges over named nodes; nodes mentioned
only by edges count as nodes, mirroring networkx semantics. -/
structure NxMixedGraph where
  nodeList : List Variable
  di_edges : List (String × String)
  bi_edges : List (String × String)
deriving DecidableEq, Repr

/-- Modelled from the spec: the ananke segregated-graph / ADMG representation,
exposing `vertices`, `di_edges`, `ud_edges`, `bi_edges`. -/
structure ADMG where
  vertices : List String
  di_edges : List (String × String)
  ud_edges : List (String × String)
  bi_edges : List (String × String)
deriving DecidableEq, Repr

/-- Modelled from the spec: all node names of a mixed graph, including
endpoints of edges (networkx adds edge endpoints as nodes). -/
def NxMixedGraph.nodeNames (g : NxMixedGraph) : List String :=
  (g.nodeList.map Variable.name
    ++ (g.di_edges ++ g.bi_edges).flatMap (fun e => [e.1, e.2])).dedup

/-- Modelled from the spec: conversion of the wrapper graph to the ananke
ADMG representation (same vertices, directed and bidirected edges, no
undirected edges). -/
def NxMixedGraph.to_admg (g : NxMixedGraph) : ADMG :=
  ⟨g.nodeNames, g.di_edges, [], g.bi_edges⟩

/-- Modelled from the spec: ananke parent query — the sources of directed
edges into `v`. -/
def ADMG.parentsOf (g : ADMG) (v : String) : List String :=
  ((g.di_edges.filter (fun e => e.2 = v)).map Prod.fst).dedup

/-- Modelled from the spec: induced subgraph of an ADMG on the vertex set
`keep`. -/
def ADMG.subgraph (g : ADMG) (keep : List String) : ADMG :=
  ⟨g.vertices.filter (· ∈ keep),
   g.di_edges.filter (fun e => e.1 ∈ keep ∧ e.2 ∈ keep),
   g.ud_edges.filter (fun e => e.1 ∈ keep ∧ e.2 ∈ keep),
   g.bi_edges.filter (fun e => e.1 ∈ keep ∧ e.2 ∈ keep)⟩

/-- Modelled from the spec: ananke `add_udedge`, appending one undirected
edge (a mutating method in the source; value-level here). -/
def ADMG.add_udedge (g : ADMG) (u v : String) : ADMG :=
  { g with ud_edges := g.ud_edges ++ [(u, v)] }

/-- One step of the ancestor closure: add sources of directed edges whose
target is already collected. -/
def ADMG.ancStep (g : ADMG) (S : List String) : List String :=
  (S ++ (g.di_edges.filter (fun e => e.2 ∈ S)).map Prod.fst).dedup

/-- Modelled from the spec: ananke `ancestors` — the closure of the given
names under following directed edges backward; every named node is its own
ancestor. Computed as a bounded fixed-point iteration. -/
def ADMG.ancestors (g : ADMG) (names : List String) : List String :=
  (g.ancStep)^[g.vertices.length + g.di_edges.length] names

/-- A plain undirected graph, mirroring `networkx.Graph`. -/
structure UGraph where
  nodes : List String
  edges : List (String × String)
deriving DecidableEq, Repr

/-- Source `disorient`: forget edge direction/type, producing an undirected
graph over the ADMG's vertices; networkx adds edge endpoints as nodes. -/
def disorient (g : ADMG) : UGraph :=
  let es := g.di_edges ++ g.ud_edges ++ g.bi_edges
  ⟨(g.vertices ++ es.flatMap (fun e => [e.1, e.2])).dedup, es⟩

/-- All unordered pairs of a list, in `itertools.combinations` order. -/
def combinations2 : List String → List (String × String)
  | [] => []
  | x :: xs => xs.map (fun y => (x, y)) ++ combinations2 xs

/-- Source `get_moral_links`: links between all co-parents in the graph.
The guard `parents.length > 1` reproduces the source's test on the list of
parent sets (not on each parent set). -/
def get_moral_links (g : ADMG) : List (String × String) :=
  let parents := g.vertices.map (fun v => g.parentsOf v)
  ((parents.filter (fun _ => parents.length > 1)).map combinations2).flatten

/-- Undirected adjacency in a `UGraph`. -/
def UGraph.adjacent (g : UGraph) (u v : String) : Bool :=
  (u, v) ∈ g.edges || (v, u) ∈ g.edges

/-- Modelled from the spec: networkx induced subgraph on a node set. -/
def UGraph.subgraphU (g : UGraph) (keep : List String) : UGraph :=
  ⟨g.nodes.filter (· ∈ keep),
   g.edges.filter (fun e => e.1 ∈ keep ∧ e.2 ∈ keep)⟩

/-- One step of undirected reachability: add all nodes adjacent to the
current set. -/
def UGraph.reachStep (g : UGraph) (S : List String) : List String :=
  (S ++ g.nodes.filter (fun v => S.any (fun u => g.adjacent u v))).dedup

/-- Bounded fixed-point iteration computing all nodes reachable from `s`. -/
def UGraph.reachList (g : UGraph) (s : String) : List String :=
  (g.reachStep)^[g.nodes.length + 1] [s]

/-- Errors surfaced by the embedded functions: the unsupported-graph error
(`NoAnankeError`), the argument type error (`TypeError`), and the networkx
node-not-found error raised by `has_path` on a missing endpoint. -/
inductive PyError
  | noAnanke
  | typeError
  | nodeNotFound
deriving DecidableEq, Repr

instance {ε α : Type} [DecidableEq ε] [DecidableEq α] : DecidableEq (Except ε α) := fun a b =>
  match a, b with
  | .ok x, .ok y => decidable_of_iff (x = y) (by simp)
  | .error x, .error y => decidable_of_iff (x = y) (by simp)
  | .ok _, .error _ => isFalse (by simp)
  | .error _, .ok _ => isFalse (by simp)

/-- Modelled from the spec: `networkx.has_path`, which raises a
node-not-found error when either endpoint is absent from the graph. -/
def has_path (g : UGraph) (s t : String) : Except PyError Bool :=
  if s ∈ g.nodes ∧ t ∈ g.nodes then .ok (t ∈ g.reachList s)
  else .error .nodeNotFound

/-- Modelled from the spec: a d-separation judgement — left and right in
canonical (name-ordered) order, a canonically sorted condition set, and the
separation verdict. -/
structure DSeparationJudgement where
  left : Variable
  right : Variable
  conditions : List Variable
  separated : Bool
deriving DecidableEq, Repr

/-- Lexicographic strict comparison of character lists (Python string `<`). -/
def strLtB : List Char → List Char → Bool
  | _, [] => false
  | [], _ :: _ => true
  | c :: cs, d :: ds => decide (c < d) || (decide (c = d) && strLtB cs ds)

/-- Name comparison used for canonical ordering. -/
def nameLeB (s t : String) : Bool := ! strLtB t.data s.data

/-- Order on variables by name, used for canonicalization. -/
def varLe (u v : Variable) : Prop := nameLeB u.name v.name = true

instance : DecidableRel varLe := fun u v =>
  inferInstanceAs (Decidable (nameLeB u.name v.name = true))

/-- Modelled from the spec: `DSeparationJudgement.create` puts left/right in
canonical order and stores the conditions as a canonically sorted set. -/
def DSeparationJudgement.create (left right : Variable) (conditions : List Variable)
    (separated : Bool) : DSeparationJudgement :=
  let cs := List.insertionSort varLe conditions.dedup
  if nameLeB left.name right.name then ⟨left, right, cs, separated⟩
  else ⟨right, left, cs, separated⟩

/-- Argument values passed to `are_d_separated`: a `Variable` or any
non-`Variable` Python value. -/
inductive Arg
  | var (v : Variable)
  | nonVariable
deriving DecidableEq, Repr

/-- The graph argument: either the expected wrapper type or the low-level
ananke representation. -/
inductive GraphInput
  | wrapper (g : NxMixedGraph)
  | ananke (g : ADMG)
deriving DecidableEq, Repr

def Arg.isVar : Arg → Bool
  | .var _ => true
  | .nonVariable => false

def Arg.getVar : Arg → Option Variable
  | .var v => some v
  | .nonVariable => none

/-- The ancestral restriction and moralization steps of `are_d_separated`:
convert to an ADMG, restrict to the ancestors of `named` (on a deep copy),
then add the moral links as undirected edges. -/
def moralizedAncestral (g : NxMixedGraph) (named : List String) : ADMG :=
  let admg0 := g.to_admg
  let keep := admg0.ancestors named
  let admg1 := admg0.subgraph keep
  (get_moral_links admg1).foldl (fun h e => h.add_udedge e.1 e.2) admg1

/-- The moralized, ancestrally-restricted, disoriented evidence graph with
the condition nodes removed — steps 2–5 of `are_d_separated`. -/
def evidenceGraph (g : NxMixedGraph) (a b : Variable) (conds : List Variable) : UGraph :=
  let condition_names := conds.map Variable.name
  let ev := disorient (moralizedAncestral g ([a.name, b.name] ++ condition_names))
  ev.subgraphU (ev.nodes.filter (fun n => ¬ n ∈ condition_names))

/-- Core of `are_d_separated` after the argument checks: build the evidence
graph and query the path, returning the judgement. -/
def dsepCore (g : NxMixedGraph) (a b : Variable) (conds : List Variable) :
    Except PyError DSeparationJudgement :=
  match has_path (evidenceGraph g a b conds) a.name b.name with
  | .error e => .error e
  | .ok p => .ok (DSeparationJudgement.create a b conds (!p))

/-- Source `are_d_separated`: reject ananke graphs, type-check the
arguments, then run the separation test. -/
def are_d_separated (graph : GraphInput) (a b : Arg) (conditions : List Arg) :
    Except PyError DSeparationJudgement :=
  match graph with
  | .ananke _ => .error .noAnanke
  | .wrapper g =>
    match a, b with
    | .var av, .var bv =>
      if conditions.all Arg.isVar then
        dsepCore g av bv (conditions.filterMap Arg.getVar)
      else .error .typeError
    | _, _ => .error .typeError

/-- The separation verdict alone (false when the path query errors). -/
def dsepSeparated (g : NxMixedGraph) (a b : Variable) (conds : List Variable) : Bool :=
  match has_path (evidenceGraph g a b conds) a.name b.name with
  | .ok p => !p
  | .error _ => false

/-- All node variables of the wrapper graph, mirroring `set(graph.nodes())`. -/
def NxMixedGraph.nodeVars (g : NxMixedGraph) : List Variable :=
  g.nodeNames.map Variable.mk

/-- Whether `v` has an incoming directed edge from a remaining node. -/
def hasIncomingFrom (edges : List (String × String)) (rem : List Variable) (v : Variable) : Bool :=
  edges.any (fun e => decide (e.2 = v.name) && rem.any (fun u => decide (u.name = e.1)))

/-- Fuelled Kahn-style topological sort over the remaining nodes. -/
def topoSortAux (edges : List (String × String)) : ℕ → List Variable → Option (List Variable)
  | 0, rem => if rem = [] then some [] else none
  | n + 1, rem =>
    if rem = [] then some []
    else
      match rem.find? (fun v => ! hasIncomingFrom edges rem v) with
      | none => none
      | some v => (topoSortAux edges n (rem.erase v)).map (fun l => v :: l)

/-- Modelled from the spec: `NxMixedGraph.topological_sort` (y0.graph)
produces a topological order of the nodes, defined only when the
directed-edge subgraph is acyclic; a cyclic graph surfaces the same
unsupported/invalid-graph error category as `NoAnankeError`. -/
def NxMixedGraph.topological_sort (g : NxMixedGraph) : Except PyError (List Variable) :=
  let nodes := g.nodeVars
  match topoSortAux g.di_edges nodes.length nodes with
  | some order => .ok order
  | none => .error .noAnanke

/-- Source `_topological_policy`: key a judgement by condition count and
the sum of topological indices of the conditions. -/
def _topological_policy (judgement : DSeparationJudgement) (order : List Variable) :
    Lex (ℕ × ℕ) :=
  toLex (judgement.conditions.length,
    (judgement.conditions.map (fun v => order.indexOf v)).sum)

/-- Source `get_topological_policy`: reject ananke graphs, compute the
topological order once, and return the keyed policy. -/
def get_topological_policy (graph : GraphInput) :
    Except PyError (DSeparationJudgement → Lex (ℕ × ℕ)) :=
  match graph with
  | .ananke _ => .error .noAnanke
  | .wrapper g =>
    match g.topological_sort with
    | .error e => .error e
    | .ok order => .ok (fun j => _topological_policy j order)

/-- Source `_len_lex`: the default policy — condition count, then the
comma-joined condition names. -/
def _len_lex (judgement : DSeparationJudgement) : Lex (ℕ × String) :=
  toLex (judgement.conditions.length,
    String.intercalate "," (judgement.conditions.map Variable.name))

/-- Source `_judgement_grouper`: the (left, right) group key. -/
def _judgement_grouper (j : DSeparationJudgement) : Variable × Variable :=
  (j.left, j.right)

/-- The grouper key as an orderable value: name pairs compared
lexicographically, matching Python tuple comparison on Variables. -/
def grouperLex (j : DSeparationJudgement) : Lex (String × String) :=
  toLex (j.left.name, j.right.name)

/-- The sort relation used on judgements before grouping. -/
def sortLe (j k : DSeparationJudgement) : Prop := grouperLex j ≤ grouperLex k

instance : DecidableRel sortLe := fun j k =>
  inferInstanceAs (Decidable (grouperLex j ≤ grouperLex k))

/-- Consecutive runs of equal keys, mirroring `itertools.groupby`. -/
def chunkBy {α κ : Type} [DecidableEq κ] (key : α → κ) : List α → List (List α)
  | [] => []
  | x :: xs =>
    match chunkBy key xs with
    | [] => [[x]]
    | [] :: gs => [x] :: gs
    | (y :: g) :: gs =>
      if key x = key y then (x :: y :: g) :: gs else [x] :: (y :: g) :: gs

/-- Python `min(..., key=policy)`: the first element attaining the least
key. -/
def minBy {α κ : Type} [LinearOrder κ] (policy : α → κ) : α → List α → α
  | x, [] => x
  | x, y :: ys => if policy y < policy x then minBy policy y ys else minBy policy x ys

/-- Source `minimal`: sort by the group key, group consecutive equal keys,
and keep the policy-least judgement of each group. -/
def minimal {κ : Type} [LinearOrder κ] (judgements : List DSeparationJudgement)
    (policy : DSeparationJudgement → κ) : List DSeparationJudgement :=
  let sorted_js := List.insertionSort sortLe judgements
  (chunkBy _judgement_grouper sorted_js).filterMap (fun grp =>
    match grp with
    | [] => none
    | x :: xs => some (minBy policy x xs))

/-- Modelled from the spec: `powerset` (y0.util.combinatorics) enumerates
subsets in non-decreasing size order, up to size `stop` when given
(default: all sizes). -/
def powersetStop {α : Type} (l : List α) (stop : Option ℕ) : List (List α) :=
  (List.range (stop.getD l.length + 1)).flatMap (fun r => List.sublistsLen r l)

/-- All unordered pairs, in `itertools.combinations` order. -/
def nodePairs {α : Type} : List α → List (α × α)
  | [] => []
  | x :: xs => xs.map (fun y => (x, y)) ++ nodePairs xs

/-- The condition sets enumerated for one pair: the size-bounded power set
of the remaining vertices. -/
def condSets (g : NxMixedGraph) (a b : Variable) (mc : Option ℕ) : List (List Variable) :=
  powersetStop (g.nodeVars.filter (fun v => v ≠ a ∧ v ≠ b)) mc

/-- The inner loop of `d_separations` for one pair: test condition sets in
order, yield separating judgements, stop at the first hit unless
`return_all`. -/
def scanPair (g : NxMixedGraph) (a b : Variable) (return_all : Bool) :
    List (List Variable) → Except PyError (List DSeparationJudgement)
  | [] => .ok []
  | c :: rest =>
    match are_d_separated (.wrapper g) (.var a) (.var b) (c.map Arg.var) with
    | .error e => .error e
    | .ok j =>
      if j.separated then
        if return_all then
          match scanPair g a b return_all rest with
          | .error e => .error e
          | .ok more => .ok (j :: more)
        else .ok [j]
      else scanPair g a b return_all rest

/-- The outer loop of `d_separations` over all node pairs. -/
def scanPairs (g : NxMixedGraph) (mc : Option ℕ) (ra : Bool) :
    List (Variable × Variable) → Except PyError (List DSeparationJudgement)
  | [] => .ok []
  | p :: ps =>
    match scanPair g p.1 p.2 ra (condSets g p.1 p.2 mc) with
    | .error e => .error e
    | .ok js =>
      match scanPairs g mc ra ps with
      | .error e => .error e
      | .ok more => .ok (js ++ more)

/-- Source `d_separations`: enumerate true judgements over all unordered
node pairs and size-ordered condition sets. -/
def d_separations (g : NxMixedGraph) (max_conditions : Option ℕ) (return_all : Bool) :
    Except PyError (List DSeparationJudgement) :=
  scanPairs g max_conditions return_all (nodePairs g.nodeVars)

/-- The pure value of the inner loop of `d_separations` for one pair:
when `return_all`, all separating condition sets, in enumeration order;
otherwise the first separating condition set, if any. -/
def scanPairPure (g : NxMixedGraph) (a b : Variable) (ra : Bool) (mc : Option ℕ) :
    List DSeparationJudgement :=
  if ra then
    ((condSets g a b mc).filter (fun c => dsepSeparated g a b c)).map
      (fun c => DSeparationJudgement.create a b c true)
  else
    match (condSets g a b mc).find? (fun c => dsepSeparated g a b c) with
    | some c => [DSeparationJudgement.create a b c true]
    | none => []

/-- A heap object: a wrapper graph or an ananke ADMG. -/
inductive Obj
  | wrapperObj (g : NxMixedGraph)
  | admgObj (g : ADMG)
deriving DecidableEq, Repr

/-- An explicit object store used to express the frame property of
`are_d_separated`: every graph object lives in a cell, and the ananke
mutator `add_udedge` writes to a cell. -/
structure Store where
  cells : List (Nat × Obj)
  next : Nat
deriving DecidableEq, Repr

def Store.read (s : Store) (r : Nat) : Option Obj :=
  (s.cells.find? (fun p => decide (p.1 = r))).map Prod.snd

def Store.alloc (s : Store) (o : Obj) : Nat × Store :=
  (s.next, ⟨(s.next, o) :: s.cells, s.next + 1⟩)

def Store.write (s : Store) (r : Nat) (o : Obj) : Store :=
  ⟨s.cells.map (fun p => if p.1 = r then (r, o) else p), s.next⟩

/-- Well-formed store: every allocated cell id is below `next`. -/
def Store.WF (s : Store) : Prop := ∀ p ∈ s.cells, p.1 < s.next

/-- Store-passing rendition of `are_d_separated`: `to_admg`, `subgraph` and
`deepcopy` allocate fresh cells and the moralization loop mutates only the
deep-copied cell, exactly as in the source. -/
def are_d_separated_state (st : Store) (gref : Nat) (a b : Arg) (conditions : List Arg) :
    Except PyError DSeparationJudgement × Store :=
  match st.read gref with
  | some (.wrapperObj g) =>
    match a, b with
    | .var av, .var bv =>
      if conditions.all Arg.isVar then
        let conds := conditions.filterMap Arg.getVar
        let condition_names := conds.map Variable.name
        let named := [av.name, bv.name] ++ condition_names
        let admg0 := g.to_admg
        let st1 := (st.alloc (.admgObj admg0)).2
        let keep := admg0.ancestors named
        let sub := admg0.subgraph keep
        let st2 := (st1.alloc (.admgObj sub)).2
        let pr3 := st2.alloc (.admgObj sub)
        let r3 := pr3.1
        let st3 := pr3.2
        let st4 := (get_moral_links sub).foldl (fun s e =>
          match s.read r3 with
          | some (.admgObj h) => s.write r3 (.admgObj (h.add_udedge e.1 e.2))
          | _ => s) st3
        let admg2 := match st4.read r3 with
          | some (.admgObj h) => h
          | _ => sub
        let ev := disorient admg2
        let keep2 := ev.nodes.filter (fun n => ¬ n ∈ condition_names)
        let ev2 := ev.subgraphU keep2
        match has_path ev2 av.name bv.name with
        | .error e => (.error e, st4)
        | .ok p => (.ok (DSeparationJudgement.create av bv conds (!p)), st4)
      else (.error .typeError, st)
    | _, _ => (.error .typeError, st)
  | some (.admgObj _) => (.error .noAnanke, st)
  | none => (.error .noAnanke, st)

/-- Membership-equivalence of name lists (set semantics of Python sets). -/
def Equ (S T : List String) : Prop := ∀ x : String, x ∈ S ↔ x ∈ T

/-- The edge relation of the undirected evidence graph, restricted to the
graph's nodes. -/
def Rel (g : UGraph) (u v : String) : Prop := g.adjacent u v = true ∧ v ∈ g.nodes

/-- Edge endpoints are nodes (networkx graphs maintain this). -/
def UGraph.WfE (g : UGraph) : Prop := ∀ e ∈ g.edges, e.1 ∈ g.nodes ∧ e.2 ∈ g.nodes

/-- The directed-edge relation of a wrapper graph on variables. -/
def diRel (g : NxMixedGraph) (u v : Variable) : Prop := (u.name, v.name) ∈ g.di_edges

instance (g : NxMixedGraph) : DecidableRel (diRel g) := fun u v =>
  inferInstanceAs (Decidable ((u.name, v.name) ∈ g.di_edges))

/-- The three-node collider graph A → C ← B. -/
def colliderExample : NxMixedGraph := ⟨[⟨"A"⟩, ⟨"B"⟩, ⟨"C"⟩], [("A", "C"), ("B", "C")], []⟩

/-- The three-node chain graph A → C → B. -/
def chainExample : NxMixedGraph := ⟨[⟨"A"⟩, ⟨"B"⟩, ⟨"C"⟩], [("A", "C"), ("C", "B")], []⟩

/-- A two-node graph whose directed part is the cycle A → B → A. -/
def cycleExample : NxMixedGraph := ⟨[⟨"A"⟩, ⟨"B"⟩], [("A", "B"), ("B", "A")], []⟩

/-- An empty low-level ananke graph. -/
def emptyAdmg : ADMG := ⟨[], [], [], []⟩

/- ======================= theorems ======================= -/

theorem strLtB_irrefl (s : List Char) : strLtB s s = false := by
  induction s with
  | nil => rfl
  | cons c cs ih => simp [strLtB, ih, lt_irrefl]

theorem strLtB_asymm : ∀ {s t : List Char}, strLtB s t = true → strLtB t s = false := by
  intro s t h
  induction s generalizing t with
  | nil => cases t <;> simp_all [strLtB]
  | cons c cs ih =>
    cases t with
    | nil => simp [strLtB] at h
    | cons d ds =>
      simp only [strLtB, Bool.or_eq_true, Bool.and_eq_true, decide_eq_true_eq] at h
      rcases h with hcd | ⟨hce, hlt⟩
      · have h1 : ¬ d < c := lt_asymm hcd
        have h2 : d ≠ c := ne_of_gt hcd
        simp [strLtB, h1, h2]
      · subst hce
        simp [strLtB, lt_irrefl, ih hlt]

theorem strLtB_eq_of_not : ∀ {s t : List Char},
    strLtB s t = false → strLtB t s = false → s = t := by
  intro s t h1 h2
  induction s generalizing t with
  | nil =>
    cases t with
    | nil => rfl
    | cons d ds => simp [strLtB] at h1
  | cons c cs ih =>
    cases t with
    | nil => simp [strLtB] at h2
    | cons d ds =>
      simp only [strLtB, Bool.or_eq_false_iff, Bool.and_eq_false_iff,
        decide_eq_false_iff_not] at h1 h2
      have hcd : ¬ c < d := h1.1
      have hdc : ¬ d < c := h2.1
      have hce : c = d := le_antisymm (not_lt.mp hdc) (not_lt.mp hcd)
      subst hce
      rcases h1.2 with h | h
      · exact absurd rfl h
      · rcases h2.2 with h' | h'
        · exact absurd rfl h'
        · rw [ih h h']

theorem nameLeB_total {s t : String} (h : nameLeB s t = false) : nameLeB t s = true := by
  have h' : strLtB t.data s.data = true := by simpa [nameLeB] using h
  simp [nameLeB, strLtB_asymm h']

theorem nameLeB_antisymm {s t : String} (h1 : nameLeB s t = true)
    (h2 : nameLeB t s = true) : s = t := by
  simp only [nameLeB, Bool.not_eq_true'] at h1 h2
  cases s with
  | mk sd =>
    cases t with
    | mk td =>
      have : td = sd := strLtB_eq_of_not h1 h2
      rw [this]

theorem Variable.name_inj {u v : Variable} (h : u.name = v.name) : u = v := by
  cases u; cases v; simpa using h

theorem create_comm (a b : Variable) (conds : List Variable) (s : Bool) :
    DSeparationJudgement.create a b conds s = DSeparationJudgement.create b a conds s := by
  unfold DSeparationJudgement.create
  by_cases h1 : nameLeB a.name b.name = true
  · by_cases h2 : nameLeB b.name a.name = true
    · have hab : a = b := Variable.name_inj (nameLeB_antisymm h1 h2)
      subst hab; rfl
    · simp [h1, h2]
  · have h2 : nameLeB b.name a.name = true :=
      nameLeB_total (Bool.not_eq_true _ ▸ eq_false_of_ne_true h1)
    simp [h1, h2]

theorem iterate_equ (f : List String → List String)
    (hf : ∀ S T, Equ S T → Equ (f S) (f T)) :
    ∀ (n : ℕ) (S T : List String), Equ S T → Equ (f^[n] S) (f^[n] T) := by
  intro n
  induction n with
  | zero => intro S T h; simpa using h
  | succ n ih =>
    intro S T h
    rw [Function.iterate_succ_apply, Function.iterate_succ_apply]
    exact ih _ _ (hf _ _ h)

theorem ancStep_congr (g : ADMG) (S T : List String) (h : Equ S T) :
    Equ (g.ancStep S) (g.ancStep T) := by
  intro x
  simp only [ADMG.ancStep, List.mem_dedup, List.mem_append, List.mem_map, List.mem_filter,
    Bool.and_eq_true, decide_eq_true_eq]
  constructor
  · rintro (hx | ⟨e, ⟨he, h2⟩, rfl⟩)
    · exact Or.inl ((h x).mp hx)
    · exact Or.inr ⟨e, ⟨he, (h e.2).mp h2⟩, rfl⟩
  · rintro (hx | ⟨e, ⟨he, h2⟩, rfl⟩)
    · exact Or.inl ((h x).mpr hx)
    · exact Or.inr ⟨e, ⟨he, (h e.2).mpr h2⟩, rfl⟩

theorem ancestors_congr (g : ADMG) {S T : List String} (h : Equ S T) :
    Equ (g.ancestors S) (g.ancestors T) :=
  iterate_equ g.ancStep (ancStep_congr g) _ S T h

theorem filter_mem_congr (l : List String) {k1 k2 : List String}
    (h : Equ k1 k2) : l.filter (· ∈ k1) = l.filter (· ∈ k2) :=
  List.filter_congr (fun a _ => by simp [h a])

theorem filter_mem2_congr (l : List (String × String)) {k1 k2 : List String} (h : Equ k1 k2) :
    l.filter (fun e => e.1 ∈ k1 ∧ e.2 ∈ k1) = l.filter (fun e => e.1 ∈ k2 ∧ e.2 ∈ k2) :=
  List.filter_congr (fun e _ => by simp [h e.1, h e.2])

theorem subgraph_congr (g : ADMG) {k1 k2 : List String} (h : Equ k1 k2) :
    g.subgraph k1 = g.subgraph k2 := by
  unfold ADMG.subgraph
  rw [filter_mem_congr g.vertices h, filter_mem2_congr g.di_edges h,
    filter_mem2_congr g.ud_edges h, filter_mem2_congr g.bi_edges h]

theorem moralizedAncestral_congr (g : NxMixedGraph) {n1 n2 : List String} (h : Equ n1 n2) :
    moralizedAncestral g n1 = moralizedAncestral g n2 := by
  simp only [moralizedAncestral]
  rw [subgraph_congr _ (ancestors_congr _ h)]

theorem evidenceGraph_comm (g : NxMixedGraph) (a b : Variable) (conds : List Variable) :
    evidenceGraph g a b conds = evidenceGraph g b a conds := by
  have h : Equ ([a.name, b.name] ++ conds.map Variable.name)
      ([b.name, a.name] ++ conds.map Variable.name) := by
    intro x; constructor <;> (intro hx; simp at hx ⊢; tauto)
  simp only [evidenceGraph]
  rw [moralizedAncestral_congr g h]

theorem mem_reachStep_self (g : UGraph) {S : List String} {x : String} (hx : x ∈ S) :
    x ∈ g.reachStep S := by
  simp [UGraph.reachStep, hx]

theorem mem_iterate_of_mem (g : UGraph) (n : ℕ) :
    ∀ (S : List String) {x : String}, x ∈ S → x ∈ (g.reachStep)^[n] S := by
  induction n with
  | zero => intro S x hx; simpa using hx
  | succ n ih =>
    intro S x hx
    rw [Function.iterate_succ_apply]
    exact ih _ (mem_reachStep_self g hx)

theorem iterate_le_mem (g : UGraph) {k m : ℕ} (hkm : k ≤ m) (S : List String) {x : String}
    (hx : x ∈ (g.reachStep)^[k] S) : x ∈ (g.reachStep)^[m] S := by
  have hm : m = (m - k) + k := by omega
  rw [hm, Function.iterate_add_apply]
  exact mem_iterate_of_mem g _ _ hx

theorem reachStep_sound (g : UGraph) {S : List String} {x : String} (hx : x ∈ g.reachStep S) :
    x ∈ S ∨ ∃ u ∈ S, Rel g u x := by
  simp only [UGraph.reachStep, List.mem_dedup, List.mem_append, List.mem_filter,
    List.any_eq_true] at hx
  rcases hx with hx | ⟨hnode, u, hu, hadj⟩
  · exact Or.inl hx
  · exact Or.inr ⟨u, hu, hadj, hnode⟩

theorem reachStep_mem_of (g : UGraph) {S : List String} {u v : String} (hu : u ∈ S)
    (hrel : Rel g u v) : v ∈ g.reachStep S := by
  simp only [UGraph.reachStep, List.mem_dedup, List.mem_append, List.mem_filter,
    List.any_eq_true]
  exact Or.inr ⟨hrel.2, u, hu, hrel.1⟩

theorem iterate_sound (g : UGraph) (s : String) (n : ℕ) :
    ∀ S, (∀ v ∈ S, Relation.ReflTransGen (Rel g) s v) →
      ∀ v ∈ (g.reachStep)^[n] S, Relation.ReflTransGen (Rel g) s v := by
  induction n with
  | zero => intro S hS v hv; exact hS v (by simpa using hv)
  | succ n ih =>
    intro S hS v hv
    rw [Function.iterate_succ_apply] at hv
    refine ih _ ?_ v hv
    intro w hw
    rcases reachStep_sound g hw with hw | ⟨u, hu, hrel⟩
    · exact hS w hw
    · exact (hS u hu).tail hrel

theorem reach_sound (g : UGraph) {s v : String} (h : v ∈ g.reachList s) :
    Relation.ReflTransGen (Rel g) s v := by
  refine iterate_sound g s _ [s] ?_ v h
  intro w hw
  simp at hw
  subst hw
  exact Relation.ReflTransGen.refl

theorem reachStep_congr (g : UGraph) (S T : List String) (h : Equ S T) :
    Equ (g.reachStep S) (g.reachStep T) := by
  intro x
  simp only [UGraph.reachStep, List.mem_dedup, List.mem_append, List.mem_filter,
    List.any_eq_true]
  constructor
  · rintro (hx | ⟨hn, u, hu, hadj⟩)
    · exact Or.inl ((h x).mp hx)
    · exact Or.inr ⟨hn, u, (h u).mp hu, hadj⟩
  · rintro (hx | ⟨hn, u, hu, hadj⟩)
    · exact Or.inl ((h x).mpr hx)
    · exact Or.inr ⟨hn, u, (h u).mpr hu, hadj⟩

theorem iterate_fix (g : UGraph) (S : List String) (hfix : Equ (g.reachStep S) S) :
    ∀ n, Equ ((g.reachStep)^[n] S) S := by
  intro n
  induction n with
  | zero => intro x; simp
  | succ n ih =>
    intro x
    rw [Function.iterate_succ_apply']
    exact Iff.trans ((reachStep_congr g _ _ ih) x) (hfix x)

theorem iterate_subset_nodes (g : UGraph) (n : ℕ) :
    ∀ S, (∀ x ∈ S, x ∈ g.nodes) → ∀ x ∈ (g.reachStep)^[n] S, x ∈ g.nodes := by
  induction n with
  | zero => intro S hS x hx; exact hS x (by simpa using hx)
  | succ n ih =>
    intro S hS x hx
    rw [Function.iterate_succ_apply] at hx
    refine ih _ ?_ x hx
    intro w hw
    rcases reachStep_sound g hw with hw | ⟨u, _, hrel⟩
    · exact hS w hw
    · exact hrel.2

theorem exists_reach_fixpoint (g : UGraph) (s : String) (hs : s ∈ g.nodes) :
    ∃ k ≤ g.nodes.length,
      Equ (g.reachStep ((g.reachStep)^[k] [s])) ((g.reachStep)^[k] [s]) := by
  by_contra hc
  push_neg at hc
  have grow : ∀ k, k ≤ g.nodes.length + 1 →
      k + 1 ≤ ((g.reachStep)^[k] [s]).toFinset.card := by
    intro k
    induction k with
    | zero => intro _; simp
    | succ k ih =>
      intro hk
      have hk' : k ≤ g.nodes.length := by omega
      have hne := hc k hk'
      have hx : ∃ x, x ∈ g.reachStep ((g.reachStep)^[k] [s]) ∧
          ¬ x ∈ (g.reachStep)^[k] [s] := by
        by_contra hall
        push_neg at hall
        exact hne (fun x => ⟨fun hx => hall x hx, fun hx => mem_reachStep_self g hx⟩)
      obtain ⟨x, hx1, hx2⟩ := hx
      have hss : ((g.reachStep)^[k] [s]).toFinset ⊂
          (g.reachStep ((g.reachStep)^[k] [s])).toFinset := by
        constructor
        · intro y hy
          simp only [List.mem_toFinset] at hy ⊢
          exact mem_reachStep_self g hy
        · intro hsub
          exact hx2 (by simpa using hsub (by simpa using hx1))
      have hcard := Finset.card_lt_card hss
      have := ih (by omega)
      rw [Function.iterate_succ_apply']
      omega
  have hsub : ((g.reachStep)^[g.nodes.length + 1] [s]).toFinset ⊆ g.nodes.toFinset := by
    intro y hy
    simp only [List.mem_toFinset] at hy ⊢
    refine iterate_subset_nodes g _ [s] ?_ y hy
    intro x hx
    simp only [List.mem_singleton] at hx
    subst hx
    exact hs
  have h1 := grow (g.nodes.length + 1) le_rfl
  have h2 := Finset.card_le_card hsub
  have h3 := g.nodes.toFinset_card_le
  omega

theorem reach_complete (g : UGraph) {s t : String} (hs : s ∈ g.nodes)
    (h : Relation.ReflTransGen (Rel g) s t) : t ∈ g.reachList s := by
  obtain ⟨k, hk, hfix⟩ := exists_reach_fixpoint g s hs
  have hsSk : s ∈ (g.reachStep)^[k] [s] := mem_iterate_of_mem g k [s] (by simp)
  have hcl : t ∈ (g.reachStep)^[k] [s] := by
    induction h with
    | refl => exact hsSk
    | tail h1 h2 ih => exact (hfix _).mp (reachStep_mem_of g ih h2)
  exact iterate_le_mem g (by omega) [s] hcl

theorem Rel_symm (g : UGraph) (hwf : g.WfE) : Symmetric (Rel g) := by
  rintro u v ⟨hadj, _⟩
  refine ⟨?_, ?_⟩
  · simp only [UGraph.adjacent, Bool.or_eq_true, decide_eq_true_eq] at hadj ⊢
    tauto
  · simp only [UGraph.adjacent, Bool.or_eq_true, decide_eq_true_eq] at hadj
    rcases hadj with h | h
    · exact (hwf _ h).1
    · exact (hwf _ h).2

theorem has_path_symm (g : UGraph) (hwf : g.WfE) (s t : String) :
    has_path g s t = has_path g t s := by
  unfold has_path
  by_cases hs : s ∈ g.nodes <;> by_cases ht : t ∈ g.nodes <;> simp [hs, ht]
  have hiff : t ∈ g.reachList s ↔ s ∈ g.reachList t := by
    constructor
    · intro h
      exact reach_complete g ht
        (Relation.ReflTransGen.symmetric (Rel_symm g hwf) (reach_sound g h))
    · intro h
      exact reach_complete g hs
        (Relation.ReflTransGen.symmetric (Rel_symm g hwf) (reach_sound g h))
  simp [hiff]

theorem disorient_wfE (g : ADMG) : (disorient g).WfE := by
  intro e he
  have he' : e ∈ g.di_edges ++ g.ud_edges ++ g.bi_edges := by simpa [disorient] using he
  rw [List.mem_append, List.mem_append] at he'
  simp only [disorient, List.mem_dedup, List.mem_append, List.mem_flatMap]
  exact ⟨Or.inr ⟨e, he', by simp⟩, Or.inr ⟨e, he', by simp⟩⟩

theorem subgraphU_wfE (g : UGraph) (hwf : g.WfE) (keep : List String) :
    (g.subgraphU keep).WfE := by
  intro e he
  simp only [UGraph.subgraphU, List.mem_filter, Bool.and_eq_true, decide_eq_true_eq] at he ⊢
  obtain ⟨he', h1, h2⟩ := he
  exact ⟨⟨(hwf e he').1, h1⟩, ⟨(hwf e he').2, h2⟩⟩

theorem evidence_wfE (g : NxMixedGraph) (a b : Variable) (conds : List Variable) :
    (evidenceGraph g a b conds).WfE := by
  simp only [evidenceGraph]
  exact subgraphU_wfE _ (disorient_wfE _) _

theorem foldl_add_udedge_vertices (l : List (String × String)) :
    ∀ h : ADMG, (l.foldl (fun h e => h.add_udedge e.1 e.2) h).vertices = h.vertices := by
  induction l with
  | nil => intro h; rfl
  | cons e l ih => intro h; rw [List.foldl_cons]; exact ih _

theorem mem_ancStep_self (g : ADMG) {S : List String} {x : String} (hx : x ∈ S) :
    x ∈ g.ancStep S := by
  simp [ADMG.ancStep, hx]

theorem mem_ancestors_of_mem (g : ADMG) {S : List String} {x : String} (hx : x ∈ S) :
    x ∈ g.ancestors S := by
  unfold ADMG.ancestors
  generalize g.vertices.length + g.di_edges.length = n
  induction n generalizing S with
  | zero => simpa using hx
  | succ n ih =>
    rw [Function.iterate_succ_apply]
    exact ih (mem_ancStep_self g hx)

theorem moralizedAncestral_vertices (g : NxMixedGraph) (named : List String) :
    (moralizedAncestral g named).vertices =
      (g.to_admg).vertices.filter (· ∈ (g.to_admg).ancestors named) := by
  simp only [moralizedAncestral, foldl_add_udedge_vertices, ADMG.subgraph]

theorem mem_subgraphU_filter (g : UGraph) (p : String → Bool) (x : String) :
    x ∈ (g.subgraphU (g.nodes.filter p)).nodes ↔ x ∈ g.nodes ∧ p x = true := by
  simp only [UGraph.subgraphU, List.mem_filter, decide_eq_true_eq]
  tauto

theorem mem_evidence_nodes (g : NxMixedGraph) (a b : Variable) (conds : List Variable)
    (x : String) :
    x ∈ (evidenceGraph g a b conds).nodes ↔
      x ∈ (disorient (moralizedAncestral g
          ([a.name, b.name] ++ conds.map Variable.name))).nodes
        ∧ ¬ x ∈ conds.map Variable.name := by
  have h := mem_subgraphU_filter
    (disorient (moralizedAncestral g ([a.name, b.name] ++ conds.map Variable.name)))
    (fun n => decide (¬ n ∈ conds.map Variable.name)) x
  simp only [decide_eq_true_eq] at h
  exact h

theorem endpoint_mem_evidence (g : NxMixedGraph) (a b : Variable) (conds : List Variable)
    {x : String} (hx : x ∈ g.nodeNames)
    (hnamed : x ∈ [a.name, b.name] ++ conds.map Variable.name)
    (hxc : ¬ x ∈ conds.map Variable.name) :
    x ∈ (evidenceGraph g a b conds).nodes := by
  rw [mem_evidence_nodes]
  refine ⟨?_, hxc⟩
  have hv : x ∈ (moralizedAncestral g ([a.name, b.name] ++ conds.map Variable.name)).vertices := by
    rw [moralizedAncestral_vertices]
    simp only [List.mem_filter, decide_eq_true_eq]
    exact ⟨hx, mem_ancestors_of_mem _ hnamed⟩
  simp only [disorient, List.mem_dedup, List.mem_append]
  exact Or.inl hv

theorem dsepCore_ok (g : NxMixedGraph) (a b : Variable) (conds : List Variable)
    (ha : a.name ∈ g.nodeNames) (hb : b.name ∈ g.nodeNames)
    (hca : ¬ a.name ∈ conds.map Variable.name) (hcb : ¬ b.name ∈ conds.map Variable.name) :
    dsepCore g a b conds =
      .ok (DSeparationJudgement.create a b conds (dsepSeparated g a b conds)) := by
  have hpa : a.name ∈ (evidenceGraph g a b conds).nodes :=
    endpoint_mem_evidence g a b conds ha (by simp) hca
  have hpb : b.name ∈ (evidenceGraph g a b conds).nodes :=
    endpoint_mem_evidence g a b conds hb (by simp) hcb
  unfold dsepCore dsepSeparated has_path
  rw [if_pos ⟨hpa, hpb⟩]

theorem dsepCore_error_of_cond (g : NxMixedGraph) (a b : Variable) (conds : List Variable)
    (h : a ∈ conds ∨ b ∈ conds) :
    dsepCore g a b conds = .error .nodeNotFound := by
  have hnot : ¬ (a.name ∈ (evidenceGraph g a b conds).nodes
      ∧ b.name ∈ (evidenceGraph g a b conds).nodes) := by
    rintro ⟨hA, hB⟩
    rcases h with h | h
    · exact ((mem_evidence_nodes g a b conds a.name).mp hA).2
        (List.mem_map.mpr ⟨a, h, rfl⟩)
    · exact ((mem_evidence_nodes g a b conds b.name).mp hB).2
        (List.mem_map.mpr ⟨b, h, rfl⟩)
  unfold dsepCore has_path
  rw [if_neg hnot]

theorem map_var_all (l : List Variable) : (l.map Arg.var).all Arg.isVar = true := by
  simp [List.all_eq_true, Arg.isVar]

theorem filterMap_getVar (l : List Variable) : l.filterMap (Arg.getVar ∘ Arg.var) = l := by
  induction l with
  | nil => rfl
  | cons v l ih => simpa [Arg.getVar] using ih

theorem are_d_separated_var (g : NxMixedGraph) (a b : Variable) (conds : List Variable) :
    are_d_separated (.wrapper g) (.var a) (.var b) (conds.map Arg.var) =
      dsepCore g a b conds := by
  simp [are_d_separated, map_var_all, filterMap_getVar]

theorem mem_nodeVars_iff (g : NxMixedGraph) (a : Variable) :
    a ∈ g.nodeVars ↔ a.name ∈ g.nodeNames := by
  simp only [NxMixedGraph.nodeVars, List.mem_map]
  constructor
  · rintro ⟨s, hs, rfl⟩; exact hs
  · intro h; exact ⟨a.name, h, by cases a; rfl⟩

theorem name_not_mem (conds : List Variable) (a : Variable) (h : ¬ a ∈ conds) :
    ¬ a.name ∈ conds.map Variable.name := by
  intro hc
  obtain ⟨c, hcmem, hcn⟩ := List.mem_map.mp hc
  exact h ((Variable.name_inj hcn) ▸ hcmem)

theorem dsepSeparated_comm (g : NxMixedGraph) (a b : Variable) (conds : List Variable) :
    dsepSeparated g a b conds = dsepSeparated g b a conds := by
  unfold dsepSeparated
  rw [evidenceGraph_comm g a b conds,
    has_path_symm _ (evidence_wfE g b a conds) a.name b.name]

/-- C1: Symmetry of the separation test: for every y0 mixed graph `G`,
distinct Variables `a` and `b` present in `G`, and condition set `C`
containing neither `a` nor `b`, `are_d_separated` on `(a, b)` and on
`(b, a)` returns the same judgement — in particular the two `separated`
verdicts are equal and the two judgements compare equal. -/
theorem C1_separation_symmetric (g : NxMixedGraph) (a b : Variable) (conds : List Variable)
    (hab : a ≠ b) (ha : a ∈ g.nodeVars) (hb : b ∈ g.nodeVars)
    (hca : ¬ a ∈ conds) (hcb : ¬ b ∈ conds) :
    ∃ j : DSeparationJudgement,
      are_d_separated (.wrapper g) (.var a) (.var b) (conds.map Arg.var) = .ok j ∧
      are_d_separated (.wrapper g) (.var b) (.var a) (conds.map Arg.var) = .ok j := by
  have ha' := (mem_nodeVars_iff g a).mp ha
  have hb' := (mem_nodeVars_iff g b).mp hb
  have hca' := name_not_mem conds a hca
  have hcb' := name_not_mem conds b hcb
  refine ⟨DSeparationJudgement.create a b conds (dsepSeparated g a b conds), ?_, ?_⟩
  · rw [are_d_separated_var, dsepCore_ok g a b conds ha' hb' hca' hcb']
  · rw [are_d_separated_var, dsepCore_ok g b a conds hb' ha' hcb' hca',
      dsepSeparated_comm g b a conds, create_comm b a conds]

/-- C1 witness: the symmetry theorem applied to the concrete chain graph
A → C → B with condition set `{C}`. -/
theorem C1_separation_symmetric_witness :
    ∃ j : DSeparationJudgement,
      are_d_separated (.wrapper chainExample) (.var ⟨"A"⟩) (.var ⟨"B"⟩)
        ([⟨"C"⟩].map Arg.var) = .ok j ∧
      are_d_separated (.wrapper chainExample) (.var ⟨"B"⟩) (.var ⟨"A"⟩)
        ([⟨"C"⟩].map Arg.var) = .ok j :=
  C1_separation_symmetric chainExample ⟨"A"⟩ ⟨"B"⟩ [⟨"C"⟩]
    (by decide) (by decide) (by decide) (by decide) (by decide)

/-- C2: Collider blocking: in the graph with only the directed edges
A → C and B → C, the pair (A, B) is separated given no conditions and not
separated given `{C}`. -/
theorem C2_collider_blocking :
    (∃ j, are_d_separated (.wrapper colliderExample) (.var ⟨"A"⟩) (.var ⟨"B"⟩) [] = .ok j
      ∧ j.separated = true) ∧
    (∃ j, are_d_separated (.wrapper colliderExample) (.var ⟨"A"⟩) (.var ⟨"B"⟩)
        [.var ⟨"C"⟩] = .ok j ∧ j.separated = false) := by
  constructor
  · exact ⟨⟨⟨"A"⟩, ⟨"B"⟩, [], true⟩, by decide, rfl⟩
  · exact ⟨⟨⟨"A"⟩, ⟨"B"⟩, [⟨"C"⟩], false⟩, by decide, rfl⟩

/-- C10: when `a` or `b` is itself an element of `conditions` (all
arguments Variables), `are_d_separated` never returns a judgement: the
conditioned endpoint is removed from the evidence graph, so the final path
check raises the node-not-found error. -/
theorem C10_condition_contains_endpoint (g : NxMixedGraph) (a b : Variable)
    (conds : List Variable) (h : a ∈ conds ∨ b ∈ conds) :
    are_d_separated (.wrapper g) (.var a) (.var b) (conds.map Arg.var) =
      .error .nodeNotFound := by
  rw [are_d_separated_var]
  exact dsepCore_error_of_cond g a b conds h

/-- C10 witness: conditioning on the endpoint A in the collider graph
raises the node-not-found error. -/
theorem C10_condition_contains_endpoint_witness :
    ((⟨"A"⟩ : Variable) ∈ [(⟨"A"⟩ : Variable)] ∨ (⟨"B"⟩ : Variable) ∈ [(⟨"A"⟩ : Variable)]) ∧
    are_d_separated (.wrapper colliderExample) (.var ⟨"A"⟩) (.var ⟨"B"⟩)
      ([⟨"A"⟩].map Arg.var) = .error .nodeNotFound :=
  ⟨Or.inl (by decide),
    C10_condition_contains_endpoint colliderExample ⟨"A"⟩ ⟨"B"⟩ [⟨"A"⟩] (Or.inl (by decide))⟩

theorem chain_pred (R : Variable → Variable → Prop) :
    ∀ (l : List Variable) (x z : Variable),
      List.Chain R x (l ++ [z]) → ∀ y ∈ l ++ [z], ∃ u ∈ x :: l, R u y := by
  intro l
  induction l with
  | nil =>
    intro x z h y hy
    simp only [List.nil_append, List.mem_singleton] at hy
    subst hy
    rcases List.chain_cons.mp h with ⟨hxz, _⟩
    exact ⟨x, by simp, hxz⟩
  | cons w l ih =>
    intro x z h y hy
    rw [List.cons_append] at h hy
    rcases List.chain_cons.mp h with ⟨hxw, hch⟩
    rcases List.mem_cons.mp hy with rfl | hy
    · exact ⟨x, by simp, hxw⟩
    · obtain ⟨u, hu, hR⟩ := ih w z hch y hy
      rcases List.mem_cons.mp hu with rfl | hu
      · exact ⟨u, by simp, hR⟩
      · exact ⟨u, by simp [hu], hR⟩

theorem cycle_pred_closed (g : NxMixedGraph) (v : Variable) (l : List Variable)
    (h : List.Chain (diRel g) v (l ++ [v])) :
    ∀ y ∈ v :: l, ∃ u ∈ v :: l, diRel g u y := by
  intro y hy
  rcases List.mem_cons.mp hy with rfl | hy
  · exact chain_pred (diRel g) l y y h y (by simp)
  · exact chain_pred (diRel g) l v v h y (by simp [hy])

theorem topoSortAux_none (edges : List (String × String)) :
    ∀ (n : ℕ) (rem S : List Variable), S ≠ [] →
      (∀ y ∈ S, y ∈ rem) →
      (∀ y ∈ S, ∃ u ∈ S, (u.name, y.name) ∈ edges) →
      topoSortAux edges n rem = none := by
  have hremne : ∀ (rem S : List Variable), S ≠ [] → (∀ y ∈ S, y ∈ rem) → ¬ rem = [] := by
    intro rem S hne hsub hrem
    subst hrem
    cases S with
    | nil => exact hne rfl
    | cons a t => exact absurd (hsub a (by simp)) (by simp)
  intro n
  induction n with
  | zero =>
    intro rem S hne hsub _
    simp [topoSortAux, hremne rem S hne hsub]
  | succ n ih =>
    intro rem S hne hsub hpred
    simp only [topoSortAux]
    rw [if_neg (hremne rem S hne hsub)]
    cases hfind : rem.find? (fun v => ! hasIncomingFrom edges rem v) with
    | none => rfl
    | some w =>
      have hw := List.find?_some hfind
      have hwS : ¬ w ∈ S := by
        intro hwS
        obtain ⟨u, huS, hedge⟩ := hpred w hwS
        have hin : hasIncomingFrom edges rem w = true := by
          simp only [hasIncomingFrom, List.any_eq_true, Bool.and_eq_true, decide_eq_true_eq]
          exact ⟨(u.name, w.name), hedge, rfl, ⟨u, hsub u huS, rfl⟩⟩
        rw [hin] at hw
        exact absurd hw (by simp)
      have hsub' : ∀ y ∈ S, y ∈ rem.erase w := by
        intro y hy
        have hyw : y ≠ w := by rintro rfl; exact hwS hy
        exact (List.mem_erase_of_ne hyw).mpr (hsub y hy)
      have hrec : topoSortAux edges n (rem.erase w) = none := ih (rem.erase w) S hne hsub' hpred
      simp [hrec]

theorem topological_sort_cyclic (g : NxMixedGraph) (v : Variable) (l : List Variable)
    (h : List.Chain (diRel g) v (l ++ [v])) :
    g.topological_sort = .error .noAnanke := by
  have hpred := cycle_pred_closed g v l h
  have hsub : ∀ y ∈ v :: l, y ∈ g.nodeVars := by
    intro y hy
    obtain ⟨u, _, hedge⟩ := hpred y hy
    rw [mem_nodeVars_iff]
    simp only [NxMixedGraph.nodeNames, List.mem_dedup, List.mem_append, List.mem_flatMap]
    exact Or.inr ⟨(u.name, y.name), Or.inl hedge, by simp⟩
  have hnone : topoSortAux g.di_edges g.nodeVars.length g.nodeVars = none :=
    topoSortAux_none g.di_edges _ g.nodeVars (v :: l) (by simp) hsub hpred
  simp [NxMixedGraph.topological_sort, hnone]

/-- C4: cyclic-graph error category: on a wrapper graph whose directed part
has a directed cycle, `get_topological_policy` fails with the same
unsupported/invalid-graph error (`NoAnankeError`) that is raised when the
low-level ananke representation is passed instead of the wrapper. -/
theorem C4_cyclic_policy_error (g : NxMixedGraph) (h : ADMG) (v : Variable)
    (l : List Variable) (hcyc : List.Chain (diRel g) v (l ++ [v])) :
    get_topological_policy (.wrapper g) = .error .noAnanke ∧
    get_topological_policy (.ananke h) = .error .noAnanke := by
  constructor
  · simp [get_topological_policy, topological_sort_cyclic g v l hcyc]
  · rfl

/-- C4 witness: the two-node cycle A → B → A. -/
theorem C4_cyclic_policy_error_witness :
    List.Chain (diRel cycleExample) ⟨"A"⟩ ([⟨"B"⟩] ++ [⟨"A"⟩]) ∧
    (get_topological_policy (.wrapper cycleExample) = .error .noAnanke ∧
     get_topological_policy (.ananke emptyAdmg) = .error .noAnanke) :=
  have hchain : List.Chain (diRel cycleExample) ⟨"A"⟩ ([⟨"B"⟩] ++ [⟨"A"⟩]) :=
    List.Chain.cons (by decide) (List.Chain.cons (by decide) List.Chain.nil)
  ⟨hchain, C4_cyclic_policy_error cycleExample emptyAdmg ⟨"A"⟩ [⟨"B"⟩] hchain⟩

/-- C7: for an acyclic wrapper graph (one whose topological sort succeeds),
the policy built by `get_topological_policy` keys every judgement by the
pair (number of conditions, sum of the topological indices of the
conditions), compared lexicographically. -/
theorem C7_topological_policy_key (g : NxMixedGraph) (order : List Variable)
    (h : g.topological_sort = .ok order) :
    ∃ pol, get_topological_policy (.wrapper g) = .ok pol ∧
      ∀ j : DSeparationJudgement,
        pol j = toLex (j.conditions.length,
          (j.conditions.map (fun v => order.indexOf v)).sum) := by
  refine ⟨fun j => _topological_policy j order, ?_, fun j => rfl⟩
  simp [get_topological_policy, h]

/-- C7 witness: the chain graph A → C → B with topological order A, C, B. -/
theorem C7_topological_policy_key_witness :
    chainExample.topological_sort = .ok [⟨"A"⟩, ⟨"C"⟩, ⟨"B"⟩] ∧
    ∃ pol, get_topological_policy (.wrapper chainExample) = .ok pol ∧
      ∀ j : DSeparationJudgement,
        pol j = toLex (j.conditions.length,
          (j.conditions.map (fun v => [(⟨"A"⟩ : Variable), ⟨"C"⟩, ⟨"B"⟩].indexOf v)).sum) :=
  ⟨by decide, C7_topological_policy_key chainExample [⟨"A"⟩, ⟨"C"⟩, ⟨"B"⟩] (by decide)⟩

theorem dsepCore_cases (g : NxMixedGraph) (a b : Variable) (conds : List Variable) :
    dsepCore g a b conds = .error .nodeNotFound ∨ ∃ j, dsepCore g a b conds = .ok j := by
  unfold dsepCore
  cases hhp : has_path (evidenceGraph g a b conds) a.name b.name with
  | error e =>
    have he : e = .nodeNotFound := by
      unfold has_path at hhp
      split at hhp
      · exact absurd hhp (by simp)
      · exact (by simpa using hhp : PyError.nodeNotFound = e).symm
    subst he
    exact Or.inl rfl
  | ok p => exact Or.inr ⟨_, rfl⟩

/-- C8 counterexample: passing the low-level ananke graph together with a
non-Variable left argument raises the unsupported-graph error, not the type
error, so "a type error is raised iff some argument is not a Variable" is
false as stated. -/
theorem C8_counterexample :
    Arg.isVar Arg.nonVariable = false ∧
    are_d_separated (.ananke emptyAdmg) Arg.nonVariable (.var ⟨"B"⟩) [] = .error .noAnanke ∧
    ¬ are_d_separated (.ananke emptyAdmg) Arg.nonVariable (.var ⟨"B"⟩) [] =
        .error .typeError := by
  decide

/-- C8 (amended): for calls on the wrapper graph type, `are_d_separated`
raises the type error iff `a`, `b`, or some condition is not a Variable,
and in that case the store-passing version returns at once with the store
unchanged — no graph transformation or mutation has been performed. -/
theorem C8_type_error_iff (g : NxMixedGraph) (a b : Arg) (conditions : List Arg) :
    (are_d_separated (.wrapper g) a b conditions = .error .typeError ↔
      (a.isVar = false ∨ b.isVar = false ∨ ∃ c ∈ conditions, c.isVar = false)) ∧
    (∀ (st : Store) (gref : ℕ),
      st.read gref = some (.wrapperObj g) →
      (a.isVar = false ∨ b.isVar = false ∨ ∃ c ∈ conditions, c.isVar = false) →
      are_d_separated_state st gref a b conditions = (.error .typeError, st)) := by
  cases a with
  | nonVariable =>
    refine ⟨⟨fun _ => Or.inl rfl, fun _ => rfl⟩, ?_⟩
    intro st gref hread _
    unfold are_d_separated_state
    rw [hread]
  | var av =>
    cases b with
    | nonVariable =>
      refine ⟨⟨fun _ => Or.inr (Or.inl rfl), fun _ => rfl⟩, ?_⟩
      intro st gref hread _
      unfold are_d_separated_state
      rw [hread]
    | var bv =>
      by_cases hall : conditions.all Arg.isVar = true
      · constructor
        · constructor
          · intro h
            rcases dsepCore_cases g av bv (conditions.filterMap Arg.getVar) with hc | ⟨j, hc⟩
            · rw [show are_d_separated (.wrapper g) (.var av) (.var bv) conditions =
                dsepCore g av bv (conditions.filterMap Arg.getVar) by
                  simp [are_d_separated, hall], hc] at h
              exact absurd h (by simp)
            · rw [show are_d_separated (.wrapper g) (.var av) (.var bv) conditions =
                dsepCore g av bv (conditions.filterMap Arg.getVar) by
                  simp [are_d_separated, hall], hc] at h
              exact absurd h (by simp)
          · rintro (h | h | ⟨c, hc, hbad⟩)
            · simp [Arg.isVar] at h
            · simp [Arg.isVar] at h
            · rw [List.all_eq_true] at hall
              rw [hall c hc] at hbad
              exact absurd hbad (by simp)
        · rintro st gref hread (h | h | ⟨c, hc, hbad⟩)
          · simp [Arg.isVar] at h
          · simp [Arg.isVar] at h
          · rw [List.all_eq_true] at hall
            rw [hall c hc] at hbad
            exact absurd hbad (by simp)
      · have hall' : conditions.all Arg.isVar = false := by
          cases hv : conditions.all Arg.isVar
          · rfl
          · exact absurd hv hall
        have hbad : ∃ c ∈ conditions, c.isVar = false := by
          rcases List.all_eq_false.mp hall' with ⟨c, hc, hb⟩
          exact ⟨c, hc, by simpa using hb⟩
        constructor
        · refine ⟨fun _ => Or.inr (Or.inr hbad), fun _ => ?_⟩
          simp [are_d_separated, hall']
        · intro st gref hread _
          unfold are_d_separated_state
          rw [hread]
          simp [hall']

/-- C8 witness for the amended statement: a non-Variable left argument on
the wrapper graph raises the type error and leaves a concrete store
untouched. -/
theorem C8_type_error_iff_witness :
    are_d_separated (.wrapper colliderExample) Arg.nonVariable (.var ⟨"B"⟩) [] =
      .error .typeError ∧
    are_d_separated_state ⟨[(0, .wrapperObj colliderExample)], 1⟩ 0 Arg.nonVariable
        (.var ⟨"B"⟩) [] =
      (.error .typeError, ⟨[(0, .wrapperObj colliderExample)], 1⟩) :=
  ⟨(C8_type_error_iff colliderExample Arg.nonVariable (.var ⟨"B"⟩) []).1.mpr (Or.inl rfl),
   (C8_type_error_iff colliderExample Arg.nonVariable (.var ⟨"B"⟩) []).2
     ⟨[(0, .wrapperObj colliderExample)], 1⟩ 0 (by decide) (Or.inl rfl)⟩

theorem find?_map_write (cells : List (Nat × Obj)) (r q : ℕ) (o : Obj) (h : q ≠ r) :
    (cells.map (fun p => if p.1 = r then (r, o) else p)).find? (fun p => decide (p.1 = q)) =
      cells.find? (fun p => decide (p.1 = q)) := by
  induction cells with
  | nil => rfl
  | cons p ps ih =>
    by_cases hp : p.1 = r
    · have hq : ¬ p.1 = q := fun hq => h (hq ▸ hp)
      simp only [List.map_cons, if_pos hp, List.find?_cons]
      have h1 : (decide ((r, o).1 = q)) = false := by simp [Ne.symm h]
      have h2 : (decide (p.1 = q)) = false := by simp [hq]
      rw [h1, h2]
      exact ih
    · simp only [List.map_cons, if_neg hp, List.find?_cons]
      cases hq : decide (p.1 = q)
      · exact ih
      · rfl

theorem Store.read_write_ne (s : Store) (r q : ℕ) (o : Obj) (h : q ≠ r) :
    (s.write r o).read q = s.read q := by
  unfold Store.read Store.write
  rw [find?_map_write s.cells r q o h]

theorem Store.read_alloc_lt (s : Store) (o : Obj) (q : ℕ) (h : q < s.next) :
    (s.alloc o).2.read q = s.read q := by
  unfold Store.alloc Store.read
  simp only [List.find?_cons]
  have hne : (decide ((s.next, o).1 = q)) = false := by simp; omega
  rw [hne]

theorem Store.read_lt_next (s : Store) (q : ℕ) (o : Obj) (hwf : s.WF)
    (h : s.read q = some o) : q < s.next := by
  unfold Store.read at h
  cases hf : s.cells.find? (fun p => decide (p.1 = q)) with
  | none => rw [hf] at h; simp at h
  | some p =>
    have hmem := List.mem_of_find?_eq_some hf
    have hq := List.find?_some hf
    simp only [decide_eq_true_eq] at hq
    have := hwf p hmem
    omega

theorem foldl_write_read (r3 : ℕ) (links : List (String × String)) :
    ∀ (st : Store) (q : ℕ), q ≠ r3 →
      (links.foldl (fun s e => match s.read r3 with
        | some (.admgObj h) => s.write r3 (.admgObj (h.add_udedge e.1 e.2))
        | _ => s) st).read q = st.read q := by
  induction links with
  | nil => intro st q _; rfl
  | cons e ls ih =>
    intro st q h
    rw [List.foldl_cons, ih _ q h]
    cases hr : st.read r3 with
    | none => simp [hr]
    | some obj =>
      cases obj with
      | wrapperObj g => simp [hr]
      | admgObj g => simp [hr, Store.read_write_ne st r3 q _ h]

/-- C9: no mutation of the input graph: in the store-passing rendition of
`are_d_separated`, where the moralization loop mutates the deep-copied
working ADMG in place, the caller's graph cell is unchanged after the
call. -/
theorem C9_no_input_mutation (st : Store) (gref : ℕ) (g : NxMixedGraph) (a b : Arg)
    (conditions : List Arg) (hwf : st.WF) (hread : st.read gref = some (.wrapperObj g)) :
    (are_d_separated_state st gref a b conditions).2.read gref = some (.wrapperObj g) := by
  have hlt : gref < st.next := Store.read_lt_next st gref _ hwf hread
  unfold are_d_separated_state
  rw [hread]
  cases a with
  | nonVariable => simpa using hread
  | var av =>
    cases b with
    | nonVariable => simpa using hread
    | var bv =>
      by_cases hall : conditions.all Arg.isVar = true
      · simp only [hall, if_true]
        have hchain : ∀ (res : Except PyError DSeparationJudgement × Store),
            res.2.read gref = some (.wrapperObj g) → res.2.read gref = some (.wrapperObj g) :=
          fun _ h => h
        -- reduce the final match: both branches carry the same store
        generalize hsub : (g.to_admg).subgraph ((g.to_admg).ancestors
          ([av.name, bv.name] ++ (conditions.filterMap Arg.getVar).map Variable.name)) = sub
        have hst1 : (st.alloc (.admgObj g.to_admg)).2.next = st.next + 1 := rfl
        have key : ((get_moral_links sub).foldl (fun s e => match s.read
              ((st.alloc (.admgObj g.to_admg)).2.alloc (.admgObj sub)).2.next with
            | some (.admgObj h) => s.write ((st.alloc (.admgObj g.to_admg)).2.alloc
                (.admgObj sub)).2.next (.admgObj (h.add_udedge e.1 e.2))
            | _ => s)
            (((st.alloc (.admgObj g.to_admg)).2.alloc (.admgObj sub)).2.alloc
              (.admgObj sub)).2).read gref = some (.wrapperObj g) := by
          rw [foldl_write_read _ _ _ gref (by
            show gref ≠ ((st.alloc _).2.alloc _).2.next
            have : ((st.alloc (.admgObj g.to_admg)).2.alloc (.admgObj sub)).2.next =
              st.next + 2 := rfl
            omega)]
          rw [Store.read_alloc_lt _ _ gref (by
            have : ((st.alloc (.admgObj g.to_admg)).2.alloc (.admgObj sub)).2.next =
              st.next + 2 := rfl
            omega)]
          rw [Store.read_alloc_lt _ _ gref (by
            have : (st.alloc (.admgObj g.to_admg)).2.next = st.next + 1 := rfl
            omega)]
          rw [Store.read_alloc_lt _ _ gref hlt]
          exact hread
        split
        · exact key
        · exact key
      · have hall' : conditions.all Arg.isVar = false := by
          cases hv : conditions.all Arg.isVar
          · rfl
          · exact absurd hv hall
        simp only [hall']
        simpa using hread

/-- C9 witness: a concrete one-cell store holding the collider graph. -/
theorem C9_no_input_mutation_witness :
    (are_d_separated_state ⟨[(0, .wrapperObj colliderExample)], 1⟩ 0 (.var ⟨"A"⟩)
        (.var ⟨"B"⟩) []).2.read 0 = some (.wrapperObj colliderExample) :=
  C9_no_input_mutation ⟨[(0, .wrapperObj colliderExample)], 1⟩ 0 colliderExample
    (.var ⟨"A"⟩) (.var ⟨"B"⟩) []
    (by intro p hp; simp at hp; rw [hp]; decide)
    (by decide)

theorem chunkBy_flatten {α κ : Type} [DecidableEq κ] (key : α → κ) :
    ∀ l : List α, (chunkBy key l).flatten = l := by
  intro l
  induction l with
  | nil => rfl
  | cons x xs ih =>
    simp only [chunkBy]
    cases hc : chunkBy key xs with
    | nil =>
      rw [hc] at ih
      simp only [List.flatten_nil] at ih
      simp [← ih]
    | cons g gs =>
      rw [hc] at ih
      cases g with
      | nil => simpa [List.flatten_cons] using ih
      | cons y gtl =>
        by_cases hkey : key x = key y
        · dsimp only
          rw [if_pos hkey]
          simpa [List.flatten_cons] using ih
        · dsimp only
          rw [if_neg hkey]
          simpa [List.flatten_cons] using ih

theorem chunkBy_const {α κ : Type} [DecidableEq κ] (key : α → κ) :
    ∀ l : List α, ∀ grp ∈ chunkBy key l,
      grp ≠ [] ∧ ∀ x ∈ grp, ∀ y ∈ grp, key x = key y := by
  intro l
  induction l with
  | nil => simp [chunkBy]
  | cons x xs ih =>
    simp only [chunkBy]
    cases hc : chunkBy key xs with
    | nil =>
      intro grp hgrp
      simp only [List.mem_singleton] at hgrp
      subst hgrp
      exact ⟨by simp, by simp⟩
    | cons g gs =>
      rw [hc] at ih
      cases g with
      | nil =>
        exact absurd rfl (ih [] (by simp)).1
      | cons y gtl =>
        by_cases hkey : key x = key y
        · dsimp only
          rw [if_pos hkey]
          intro grp hgrp
          rcases List.mem_cons.mp hgrp with rfl | hgrp
          · refine ⟨by simp, ?_⟩
            have hconst := (ih (y :: gtl) (by simp)).2
            have hofx : ∀ w ∈ x :: y :: gtl, key w = key y := by
              intro w hw
              rcases List.mem_cons.mp hw with h' | h'
              · rw [h', hkey]
              · exact hconst w h' y (by simp)
            intro u hu v hv
            rw [hofx u hu, hofx v hv]
          · exact ih grp (by simp [hgrp])
        · dsimp only
          rw [if_neg hkey]
          intro grp hgrp
          rcases List.mem_cons.mp hgrp with rfl | hgrp
          · exact ⟨by simp, by simp⟩
          · exact ih grp hgrp

theorem chunkBy_pairwise_ne {α κ κ' : Type} [DecidableEq κ] [LinearOrder κ']
    (key : α → κ) (okey : α → κ')
    (hcompat : ∀ x y, key x = key y ↔ okey x = okey y) :
    ∀ l : List α, l.Sorted (fun a b => okey a ≤ okey b) →
      (chunkBy key l).Pairwise (fun g1 g2 => ∀ x ∈ g1, ∀ y ∈ g2, key x ≠ key y) := by
  intro l
  induction l with
  | nil => simp [chunkBy]
  | cons x xs ih =>
    intro hs
    rcases List.sorted_cons.mp hs with ⟨hx, hs'⟩
    have hp := ih hs'
    simp only [chunkBy]
    cases hc : chunkBy key xs with
    | nil => simp
    | cons g gs =>
      rw [hc] at hp
      have hflat : (chunkBy key xs).flatten = xs := chunkBy_flatten key xs
      rw [hc] at hflat
      cases g with
      | nil =>
        have := chunkBy_const key xs [] (hc ▸ (by simp : ([] : List α) ∈ [] :: gs))
        exact absurd rfl this.1
      | cons y gtl =>
        have hxs_eq : xs = y :: (gtl ++ gs.flatten) := by
          simpa [List.flatten_cons] using hflat.symm
        have hchunkconst := chunkBy_const key xs (y :: gtl)
          (hc ▸ (by simp : (y :: gtl) ∈ (y :: gtl) :: gs))
        by_cases hkey : key x = key y
        · dsimp only
          rw [if_pos hkey]
          rcases List.pairwise_cons.mp hp with ⟨hrel, htl⟩
          refine List.pairwise_cons.mpr ⟨?_, htl⟩
          intro h hh u hu v hv
          rcases List.mem_cons.mp hu with rfl | hu
          · rw [show key u = key y from hkey]
            exact hrel h hh y (by simp) v hv
          · exact hrel h hh u hu v hv
        · dsimp only
          rw [if_neg hkey]
          refine List.pairwise_cons.mpr ⟨?_, hp⟩
          intro h hh u hu v hv hcon
          have hux : u = x := by simpa using hu
          rw [hux] at hcon
          rcases List.mem_cons.mp hh with rfl | hh'
          · -- v in the same chunk as y: key v = key y, contradicting key x ≠ key y
            exact hkey (hcon.trans (hchunkconst.2 v hv y (by simp)))
          · -- v in a later chunk: okey x ≤ okey y ≤ okey v = okey x forces key x = key y
            have hyxs : y ∈ xs := by rw [hxs_eq]; simp
            have hvflat : v ∈ gs.flatten := List.mem_flatten.mpr ⟨h, hh', hv⟩
            have hvxs : v ∈ gtl ++ gs.flatten := List.mem_append_right _ hvflat
            have h1 : okey x ≤ okey y := hx y hyxs
            have h2 : okey y ≤ okey v := by
              rw [hxs_eq] at hs'
              exact List.rel_of_sorted_cons hs' v hvxs
            have h3 : okey x = okey v := (hcompat x v).mp hcon
            have h4 : okey x = okey y := le_antisymm h1 (h3 ▸ h2)
            exact hkey ((hcompat x y).mpr h4)

theorem minBy_mem {α κ : Type} [LinearOrder κ] (policy : α → κ) :
    ∀ (l : List α) (x : α), minBy policy x l ∈ x :: l := by
  intro l
  induction l with
  | nil => intro x; simp [minBy]
  | cons y ys ih =>
    intro x
    simp only [minBy]
    by_cases h : policy y < policy x
    · rw [if_pos h]
      rcases List.mem_cons.mp (ih y) with h' | h'
      · simp [h']
      · simp [h']
    · rw [if_neg h]
      rcases List.mem_cons.mp (ih x) with h' | h'
      · simp [h']
      · simp [h']

theorem minBy_le {α κ : Type} [LinearOrder κ] (policy : α → κ) :
    ∀ (l : List α) (x z : α), z ∈ x :: l → policy (minBy policy x l) ≤ policy z := by
  intro l
  induction l with
  | nil =>
    intro x z hz
    simp only [List.mem_singleton] at hz
    subst hz
    simp [minBy]
  | cons y ys ih =>
    intro x z hz
    simp only [minBy]
    rcases List.mem_cons.mp hz with rfl | hz'
    · by_cases h : policy y < policy z
      · rw [if_pos h]
        exact le_trans (ih y y (by simp)) (le_of_lt h)
      · rw [if_neg h]
        exact ih z z (by simp)
    · by_cases h : policy y < policy x
      · rw [if_pos h]
        exact ih y z hz'
      · rw [if_neg h]
        rcases List.mem_cons.mp hz' with rfl | hz''
        · exact le_trans (ih x x (by simp)) (not_lt.mp h)
        · exact ih x z (List.mem_cons.mpr (Or.inr hz''))

theorem grouper_eq_iff (j k : DSeparationJudgement) :
    _judgement_grouper j = _judgement_grouper k ↔ grouperLex j = grouperLex k := by
  simp only [_judgement_grouper, grouperLex, Prod.mk.injEq]
  constructor
  · rintro ⟨h1, h2⟩
    rw [h1, h2]
  · intro h
    have h' := toLex_inj.mp h
    rw [Prod.mk.injEq] at h'
    exact ⟨Variable.name_inj h'.1, Variable.name_inj h'.2⟩

/-- C3: Minimal-cover selection: `minimal` returns, for each distinct
(left, right) pair occurring in the input, exactly one judgement — one that
minimizes the policy key within its group and belongs to the input — and
nothing for absent pairs; the default `_len_lex` policy orders by condition
count and then by the comma-joined condition names. -/
theorem C3_minimal_cover {κ : Type} [LinearOrder κ] (js : List DSeparationJudgement)
    (policy : DSeparationJudgement → κ) :
    (∀ j ∈ minimal js policy, j ∈ js ∧
      ∀ j2 ∈ js, _judgement_grouper j2 = _judgement_grouper j → policy j ≤ policy j2) ∧
    (∀ p : Variable × Variable,
      (∃ j ∈ js, _judgement_grouper j = p) ↔
        ∃ j ∈ minimal js policy, _judgement_grouper j = p) ∧
    (minimal js policy).Pairwise
      (fun j1 j2 => _judgement_grouper j1 ≠ _judgement_grouper j2) ∧
    (∀ j : DSeparationJudgement, _len_lex j =
      toLex (j.conditions.length,
        String.intercalate "," (j.conditions.map Variable.name))) := by
  haveI hTot : IsTotal DSeparationJudgement sortLe := ⟨fun a b => le_total _ _⟩
  haveI hTrans : IsTrans DSeparationJudgement sortLe := ⟨fun a b c hab hbc => le_trans hab hbc⟩
  have hsorted : (List.insertionSort sortLe js).Sorted
      (fun a b => grouperLex a ≤ grouperLex b) :=
    List.sorted_insertionSort sortLe js
  have hmem : ∀ x, x ∈ List.insertionSort sortLe js ↔ x ∈ js :=
    fun x => (List.perm_insertionSort sortLe js).mem_iff
  have hchunks_pw := chunkBy_pairwise_ne _judgement_grouper grouperLex grouper_eq_iff
    (List.insertionSort sortLe js) hsorted
  have hflat := chunkBy_flatten _judgement_grouper (List.insertionSort sortLe js)
  have hconst := chunkBy_const _judgement_grouper (List.insertionSort sortLe js)
  have hmin_eq : minimal js policy =
      (chunkBy _judgement_grouper (List.insertionSort sortLe js)).filterMap
        (fun grp => match grp with
          | [] => none
          | x :: xs => some (minBy policy x xs)) := rfl
  have hsymm : Symmetric (fun g1 g2 : List DSeparationJudgement =>
      ∀ x ∈ g1, ∀ y ∈ g2, _judgement_grouper x ≠ _judgement_grouper y) :=
    fun g1 g2 h12 y hy x hx => (h12 x hx y hy).symm
  have part1 : ∀ j ∈ minimal js policy, j ∈ js ∧
      ∀ j2 ∈ js, _judgement_grouper j2 = _judgement_grouper j → policy j ≤ policy j2 := by
    intro j hj
    rw [hmin_eq] at hj
    obtain ⟨grp, hgrp, hfgrp⟩ := List.mem_filterMap.mp hj
    cases grp with
    | nil => simp at hfgrp
    | cons x xs =>
      have hj_eq : minBy policy x xs = j := by simpa using hfgrp
      have hj_in_grp : j ∈ x :: xs := hj_eq ▸ minBy_mem policy xs x
      have hj_in_L : j ∈ List.insertionSort sortLe js := by
        rw [← hflat]
        exact List.mem_flatten.mpr ⟨x :: xs, hgrp, hj_in_grp⟩
      refine ⟨(hmem j).mp hj_in_L, ?_⟩
      intro j2 hj2 hg
      have hj2L : j2 ∈ List.insertionSort sortLe js := (hmem j2).mpr hj2
      rw [← hflat] at hj2L
      obtain ⟨grp2, hgrp2, hj2g⟩ := List.mem_flatten.mp hj2L
      by_cases hgg : grp2 = x :: xs
      · rw [← hj_eq]
        exact minBy_le policy xs x j2 (hgg ▸ hj2g)
      · have hne := List.Pairwise.forall hsymm hchunks_pw hgrp2 hgrp hgg
        exact absurd hg (hne j2 hj2g j hj_in_grp)
  refine ⟨part1, ?_, ?_, fun j => rfl⟩
  · intro p
    constructor
    · rintro ⟨j, hj, hp⟩
      have hjL : j ∈ List.insertionSort sortLe js := (hmem j).mpr hj
      rw [← hflat] at hjL
      obtain ⟨grp, hgrp, hjg⟩ := List.mem_flatten.mp hjL
      cases grp with
      | nil => exact absurd rfl (hconst [] hgrp).1
      | cons x xs =>
        refine ⟨minBy policy x xs, ?_, ?_⟩
        · rw [hmin_eq]
          exact List.mem_filterMap.mpr ⟨x :: xs, hgrp, rfl⟩
        · exact ((hconst (x :: xs) hgrp).2 (minBy policy x xs)
            (minBy_mem policy xs x) j hjg).trans hp
    · rintro ⟨j', hj', hp⟩
      exact ⟨j', (part1 j' hj').1, hp⟩
  · rw [hmin_eq]
    refine List.pairwise_filterMap.mpr (hchunks_pw.imp ?_)
    intro g1 g2 h12 m1 hm1 m2 hm2
    cases g1 with
    | nil => simp at hm1
    | cons x xs =>
      cases g2 with
      | nil => simp at hm2
      | cons y ys =>
        have e1 : minBy policy x xs = m1 := by simpa using hm1
        have e2 : minBy policy y ys = m2 := by simpa using hm2
        rw [← e1, ← e2]
        exact h12 (minBy policy x xs) (minBy_mem policy xs x)
          (minBy policy y ys) (minBy_mem policy ys y)

/-- C3 witness: `minimal` applied to two judgements on the same pair with
different condition sets, under the default policy. -/
theorem C3_minimal_cover_witness :
    (∀ j ∈ minimal [⟨⟨"X"⟩, ⟨"Y"⟩, [⟨"Z"⟩], true⟩, ⟨⟨"X"⟩, ⟨"Y"⟩, [], true⟩] _len_lex,
      j ∈ [⟨⟨"X"⟩, ⟨"Y"⟩, [⟨"Z"⟩], true⟩, ⟨⟨"X"⟩, ⟨"Y"⟩, [], true⟩] ∧
      ∀ j2 ∈ [(⟨⟨"X"⟩, ⟨"Y"⟩, [⟨"Z"⟩], true⟩ : DSeparationJudgement), ⟨⟨"X"⟩, ⟨"Y"⟩, [], true⟩],
        _judgement_grouper j2 = _judgement_grouper j → _len_lex j ≤ _len_lex j2) ∧
    (∀ p : Variable × Variable,
      (∃ j ∈ [(⟨⟨"X"⟩, ⟨"Y"⟩, [⟨"Z"⟩], true⟩ : DSeparationJudgement),
          ⟨⟨"X"⟩, ⟨"Y"⟩, [], true⟩], _judgement_grouper j = p) ↔
        ∃ j ∈ minimal [⟨⟨"X"⟩, ⟨"Y"⟩, [⟨"Z"⟩], true⟩, ⟨⟨"X"⟩, ⟨"Y"⟩, [], true⟩] _len_lex,
          _judgement_grouper j = p) ∧
    (minimal [⟨⟨"X"⟩, ⟨"Y"⟩, [⟨"Z"⟩], true⟩, ⟨⟨"X"⟩, ⟨"Y"⟩, [], true⟩] _len_lex).Pairwise
      (fun j1 j2 => _judgement_grouper j1 ≠ _judgement_grouper j2) ∧
    (∀ j : DSeparationJudgement, _len_lex j =
      toLex (j.conditions.length,
        String.intercalate "," (j.conditions.map Variable.name))) :=
  C3_minimal_cover [⟨⟨"X"⟩, ⟨"Y"⟩, [⟨"Z"⟩], true⟩, ⟨⟨"X"⟩, ⟨"Y"⟩, [], true⟩] _len_lex

theorem create_separated (a b : Variable) (c : List Variable) (s : Bool) :
    (DSeparationJudgement.create a b c s).separated = s := by
  unfold DSeparationJudgement.create
  split <;> rfl

theorem create_grouper (a b : Variable) (c : List Variable) (s : Bool) :
    _judgement_grouper (DSeparationJudgement.create a b c s) = (a, b) ∨
    _judgement_grouper (DSeparationJudgement.create a b c s) = (b, a) := by
  unfold DSeparationJudgement.create _judgement_grouper
  split
  · exact Or.inl rfl
  · exact Or.inr rfl

theorem create_conditions_length (a b : Variable) (c : List Variable) (s : Bool) :
    (DSeparationJudgement.create a b c s).conditions.length = c.dedup.length := by
  unfold DSeparationJudgement.create
  split <;> exact (List.perm_insertionSort varLe c.dedup).length_eq

theorem nodeVars_nodup (g : NxMixedGraph) : g.nodeVars.Nodup :=
  (List.nodup_dedup _).map (fun a b h => by injection h)

theorem mem_powersetStop {α : Type} (l : List α) (stop : Option ℕ) (c : List α) :
    c ∈ powersetStop l stop ↔ c.Sublist l ∧ c.length ≤ stop.getD l.length := by
  unfold powersetStop
  simp only [List.mem_flatMap, List.mem_range, List.mem_sublistsLen]
  constructor
  · rintro ⟨r, hr, hsub, hlen⟩
    exact ⟨hsub, by omega⟩
  · rintro ⟨hsub, hlen⟩
    exact ⟨c.length, by omega, hsub, rfl⟩

theorem powersetStop_zero {α : Type} (l : List α) : powersetStop l (some 0) = [[]] := by
  have h1 : List.range 1 = [0] := rfl
  simp [powersetStop, h1]

theorem mem_condSets (g : NxMixedGraph) (a b : Variable) (mc : Option ℕ)
    (c : List Variable) (hc : c ∈ condSets g a b mc) :
    c.Sublist (g.nodeVars.filter (fun v => v ≠ a ∧ v ≠ b)) :=
  ((mem_powersetStop _ _ _).mp hc).1

theorem condSets_nodup (g : NxMixedGraph) (a b : Variable) (mc : Option ℕ)
    (c : List Variable) (hc : c ∈ condSets g a b mc) : c.Nodup :=
  ((nodeVars_nodup g).filter _).sublist (mem_condSets g a b mc c hc)

theorem condSets_not_mem_name (g : NxMixedGraph) (a b : Variable) (mc : Option ℕ)
    (c : List Variable) (hc : c ∈ condSets g a b mc) :
    ¬ a.name ∈ c.map Variable.name ∧ ¬ b.name ∈ c.map Variable.name := by
  have hmem : ∀ v ∈ c, v ≠ a ∧ v ≠ b := by
    intro v hv
    have hvf := (mem_condSets g a b mc c hc).subset hv
    have := List.mem_filter.mp hvf
    simpa using this.2
  constructor
  · intro h
    obtain ⟨v, hv, hname⟩ := List.mem_map.mp h
    exact (hmem v hv).1 (Variable.name_inj hname)
  · intro h
    obtain ⟨v, hv, hname⟩ := List.mem_map.mp h
    exact (hmem v hv).2 (Variable.name_inj hname)

theorem condSets_zero (g : NxMixedGraph) (a b : Variable) :
    condSets g a b (some 0) = [[]] := powersetStop_zero _

theorem nodePairs_mem_parts {α : Type} :
    ∀ (l : List α) (p : α × α), p ∈ nodePairs l → p.1 ∈ l ∧ p.2 ∈ l := by
  intro l
  induction l with
  | nil => simp [nodePairs]
  | cons x xs ih =>
    intro p hp
    simp only [nodePairs, List.mem_append, List.mem_map] at hp
    rcases hp with ⟨y, hy, rfl⟩ | hp
    · exact ⟨by simp, by simp [hy]⟩
    · obtain ⟨h1, h2⟩ := ih p hp
      exact ⟨by simp [h1], by simp [h2]⟩

theorem nodePairs_pairwise {α : Type} : ∀ l : List α, l.Nodup →
    (nodePairs l).Pairwise
      (fun p q => ¬ ((p.1 = q.1 ∧ p.2 = q.2) ∨ (p.1 = q.2 ∧ p.2 = q.1))) := by
  intro l
  induction l with
  | nil => simp [nodePairs]
  | cons x xs ih =>
    intro h
    rcases List.nodup_cons.mp h with ⟨hx, hxs⟩
    simp only [nodePairs]
    rw [List.pairwise_append]
    refine ⟨?_, ih hxs, ?_⟩
    · have hnd : (xs.map (fun y => (x, y))).Nodup :=
        hxs.map (fun a b hab => by simpa using hab)
      refine List.Pairwise.imp_of_mem ?_ hnd
      intro a b ha hb hab
      obtain ⟨u, hu, rfl⟩ := List.mem_map.mp ha
      obtain ⟨v, hv, rfl⟩ := List.mem_map.mp hb
      rintro (⟨h1, h2⟩ | ⟨h1, h2⟩)
      · exact hab (by simp only [Prod.mk.injEq] at h2 ⊢; exact ⟨trivial, by simpa using h2⟩)
      · have hxv : x = v := by simpa using h1
        exact hx (hxv ▸ hv)
    · intro a ha b hb
      obtain ⟨u, hu, rfl⟩ := List.mem_map.mp ha
      obtain ⟨h1, h2⟩ := nodePairs_mem_parts xs b hb
      rintro (⟨k1, k2⟩ | ⟨k1, k2⟩)
      · have hxb : x = b.1 := by simpa using k1
        exact hx (hxb ▸ h1)
      · have hxb : x = b.2 := by simpa using k1
        exact hx (hxb ▸ h2)

theorem find?_append_some {α : Type} (p : α → Bool) {l1 : List α} (l2 : List α) {c : α}
    (h : l1.find? p = some c) : (l1 ++ l2).find? p = some c := by
  induction l1 with
  | nil => simp at h
  | cons x xs ih =>
    rw [List.cons_append]
    cases hp : p x
    · rw [List.find?_cons_of_neg _ (by simp [hp])] at h ⊢
      exact ih h
    · rw [List.find?_cons_of_pos _ hp] at h ⊢
      exact h

theorem find?_append_none {α : Type} (p : α → Bool) {l1 : List α} (l2 : List α)
    (h : l1.find? p = none) : (l1 ++ l2).find? p = l2.find? p := by
  induction l1 with
  | nil => rfl
  | cons x xs ih =>
    rw [List.cons_append]
    cases hp : p x
    · rw [List.find?_cons_of_neg _ (by simp [hp])] at h ⊢
      exact ih h
    · rw [List.find?_cons_of_pos _ hp] at h
      simp at h

theorem find?_flatMap_sizes {α : Type} (f : ℕ → List (List α)) (P : List α → Bool) :
    ∀ rs : List ℕ, rs.Pairwise (· < ·) →
      (∀ r ∈ rs, ∀ x ∈ f r, x.length = r) →
      ∀ c, (rs.flatMap f).find? P = some c →
      ∀ c2 ∈ rs.flatMap f, P c2 = true → c.length ≤ c2.length := by
  intro rs
  induction rs with
  | nil =>
    intro _ _ c h
    simp at h
  | cons r rs ih =>
    intro hpw hlen c h c2 hc2 hP
    rw [List.flatMap_cons] at h hc2
    rcases List.pairwise_cons.mp hpw with ⟨hlt, hpw'⟩
    cases hf : (f r).find? P with
    | some c' =>
      have hcc : c' = c := by
        rw [find?_append_some P _ hf] at h
        injection h
      subst hcc
      have hcmem := List.mem_of_find?_eq_some hf
      have hclen : c'.length = r := hlen r (by simp) c' hcmem
      rcases List.mem_append.mp hc2 with hc2 | hc2
      · have h2 : c2.length = r := hlen r (by simp) c2 hc2
        omega
      · obtain ⟨r', hr', hc2'⟩ := List.mem_flatMap.mp hc2
        have h2 : c2.length = r' := hlen r' (by simp [hr']) c2 hc2'
        have h3 : r < r' := hlt r' hr'
        omega
    | none =>
      rw [find?_append_none P _ hf] at h
      rcases List.mem_append.mp hc2 with hc2 | hc2
      · exact absurd hP (by simpa using List.find?_eq_none.mp hf c2 hc2)
      · exact ih hpw' (fun r' hr' => hlen r' (by simp [hr'])) c h c2 hc2 hP

theorem scanPair_eq (g : NxMixedGraph) (a b : Variable) (ra : Bool)
    (ha : a.name ∈ g.nodeNames) (hb : b.name ∈ g.nodeNames) :
    ∀ cands : List (List Variable),
      (∀ c ∈ cands, ¬ a.name ∈ c.map Variable.name ∧ ¬ b.name ∈ c.map Variable.name) →
      scanPair g a b ra cands = .ok (
        if ra then (cands.filter (fun c => dsepSeparated g a b c)).map
            (fun c => DSeparationJudgement.create a b c true)
        else match cands.find? (fun c => dsepSeparated g a b c) with
          | some c => [DSeparationJudgement.create a b c true]
          | none => []) := by
  intro cands
  induction cands with
  | nil => intro _; cases ra <;> rfl
  | cons c rest ih =>
    intro hv
    have hc := hv c (by simp)
    have hok : are_d_separated (.wrapper g) (.var a) (.var b) (c.map Arg.var) =
        .ok (DSeparationJudgement.create a b c (dsepSeparated g a b c)) := by
      rw [are_d_separated_var]
      exact dsepCore_ok g a b c ha hb hc.1 hc.2
    have ihr := ih (fun c' hc' => hv c' (by simp [hc']))
    simp only [scanPair]
    rw [hok]
    dsimp only
    rw [create_separated]
    cases hsep : dsepSeparated g a b c with
    | false =>
      rw [if_neg (by simp), ihr]
      rw [List.filter_cons_of_neg (by simp [hsep]),
        List.find?_cons_of_neg _ (by simp [hsep])]
    | true =>
      rw [if_pos rfl]
      cases ra with
      | false =>
        rw [List.find?_cons_of_pos _ (by simp [hsep])]
        simp
      | true =>
        rw [ihr, List.filter_cons_of_pos (by simp [hsep])]
        simp

theorem scanPairs_eq (g : NxMixedGraph) (mc : Option ℕ) (ra : Bool) :
    ∀ ps : List (Variable × Variable),
      (∀ p ∈ ps, p.1 ∈ g.nodeVars ∧ p.2 ∈ g.nodeVars) →
      scanPairs g mc ra ps = .ok (ps.flatMap (fun p => scanPairPure g p.1 p.2 ra mc)) := by
  intro ps
  induction ps with
  | nil => intro _; rfl
  | cons p ps ih =>
    intro hp
    have hp1 := (hp p (by simp)).1
    have hp2 := (hp p (by simp)).2
    have hone : scanPair g p.1 p.2 ra (condSets g p.1 p.2 mc) =
        .ok (scanPairPure g p.1 p.2 ra mc) := by
      rw [scanPair_eq g p.1 p.2 ra ((mem_nodeVars_iff g p.1).mp hp1)
        ((mem_nodeVars_iff g p.2).mp hp2) (condSets g p.1 p.2 mc)
        (fun c hc => condSets_not_mem_name g p.1 p.2 mc c hc)]
      rfl
    simp only [scanPairs]
    rw [hone, ih (fun q hq => hp q (by simp [hq]))]
    simp [List.flatMap_cons]

theorem d_separations_eq (g : NxMixedGraph) (mc : Option ℕ) (ra : Bool) :
    d_separations g mc ra =
      .ok ((nodePairs g.nodeVars).flatMap (fun p => scanPairPure g p.1 p.2 ra mc)) := by
  unfold d_separations
  exact scanPairs_eq g mc ra (nodePairs g.nodeVars)
    (fun p hp => nodePairs_mem_parts g.nodeVars p hp)

/-- C5: Zero-condition enumeration: with `max_conditions = 0` the
enumeration tests exactly the empty condition set for each unordered pair
of distinct nodes — the per-pair candidate list is `[[]]` — and the output
is determined by marginal separation alone. -/
theorem C5_zero_conditions (g : NxMixedGraph) (ra : Bool) :
    (∀ a b : Variable, condSets g a b (some 0) = [[]]) ∧
    d_separations g (some 0) ra =
      .ok ((nodePairs g.nodeVars).flatMap (fun p =>
        if dsepSeparated g p.1 p.2 [] then
          [DSeparationJudgement.create p.1 p.2 [] true] else [])) := by
  refine ⟨fun a b => condSets_zero g a b, ?_⟩
  rw [d_separations_eq]
  refine congrArg Except.ok (List.flatMap_congr ?_)
  intro p hp
  unfold scanPairPure
  rw [condSets_zero]
  cases hsep : dsepSeparated g p.1 p.2 [] with
  | true => cases ra <;> simp [List.filter_cons, List.find?_cons, hsep]
  | false => cases ra <;> simp [List.filter_cons, List.find?_cons, hsep]

/-- C6: First-hit enumeration: with `return_all = false`, `d_separations`
yields at most one judgement per unordered pair — a separating judgement
whose condition set is found first in the size-ordered traversal and hence
has minimal size among all separating candidate sets for that pair; with
`return_all = true`, every separating condition set of every pair
contributes its judgement to the output. -/
theorem C6_first_hit_enumeration (g : NxMixedGraph) (mc : Option ℕ) :
    (∀ out, d_separations g mc false = .ok out →
      out.Pairwise (fun j1 j2 => _judgement_grouper j1 ≠ _judgement_grouper j2) ∧
      ∀ j ∈ out, j.separated = true ∧
        ∃ a b c, (a, b) ∈ nodePairs g.nodeVars ∧
          j = DSeparationJudgement.create a b c true ∧ c ∈ condSets g a b mc ∧
          dsepSeparated g a b c = true ∧
          ∀ c2 ∈ condSets g a b mc, dsepSeparated g a b c2 = true →
            j.conditions.length ≤ c2.length) ∧
    (∀ out, d_separations g mc true = .ok out →
      ∀ p ∈ nodePairs g.nodeVars, ∀ c ∈ condSets g p.1 p.2 mc,
        dsepSeparated g p.1 p.2 c = true →
          DSeparationJudgement.create p.1 p.2 c true ∈ out) := by
  have hshape : ∀ a b : Variable, ∀ j ∈ scanPairPure g a b false mc,
      ∃ c, (condSets g a b mc).find? (fun c => dsepSeparated g a b c) = some c ∧
        j = DSeparationJudgement.create a b c true := by
    intro a b j hj
    unfold scanPairPure at hj
    rw [if_neg (by simp)] at hj
    cases hfind : (condSets g a b mc).find? (fun c => dsepSeparated g a b c) with
    | none => rw [hfind] at hj; simp at hj
    | some c =>
      rw [hfind] at hj
      simp only [List.mem_singleton] at hj
      exact ⟨c, rfl, hj⟩
  have hgrouper : ∀ a b : Variable, ∀ j ∈ scanPairPure g a b false mc,
      _judgement_grouper j = (a, b) ∨ _judgement_grouper j = (b, a) := by
    intro a b j hj
    obtain ⟨c, _, hje⟩ := hshape a b j hj
    rw [hje]
    exact create_grouper a b c true
  constructor
  · intro out hout
    rw [d_separations_eq] at hout
    injection hout with hout'
    subst hout'
    constructor
    · rw [List.flatMap_def]
      refine List.pairwise_flatten.mpr ⟨?_, ?_⟩
      · intro s hs
        obtain ⟨p, hp, rfl⟩ := List.mem_map.mp hs
        unfold scanPairPure
        rw [if_neg (by simp)]
        cases (condSets g p.1 p.2 mc).find? (fun c => dsepSeparated g p.1 p.2 c) <;> simp
      · rw [List.pairwise_map]
        refine List.Pairwise.imp_of_mem ?_ (nodePairs_pairwise g.nodeVars (nodeVars_nodup g))
        intro p q hp hq hpq x hx y hy hcon
        rcases hgrouper p.1 p.2 x hx with hgx | hgx <;>
          rcases hgrouper q.1 q.2 y hy with hgy | hgy <;>
          rw [hgx, hgy] at hcon
        · exact hpq (Or.inl ⟨congrArg Prod.fst hcon, congrArg Prod.snd hcon⟩)
        · exact hpq (Or.inr ⟨congrArg Prod.fst hcon, congrArg Prod.snd hcon⟩)
        · exact hpq (Or.inr ⟨congrArg Prod.snd hcon, congrArg Prod.fst hcon⟩)
        · exact hpq (Or.inl ⟨congrArg Prod.snd hcon, congrArg Prod.fst hcon⟩)
    · intro j hj
      obtain ⟨p, hp, hjp⟩ := List.mem_flatMap.mp hj
      obtain ⟨c, hfind, hje⟩ := hshape p.1 p.2 j hjp
      have hcmem := List.mem_of_find?_eq_some hfind
      have hcsep : dsepSeparated g p.1 p.2 c = true := by simpa using List.find?_some hfind
      subst hje
      refine ⟨create_separated p.1 p.2 c true, p.1, p.2, c, by simpa using hp, rfl,
        hcmem, hcsep, ?_⟩
      intro c2 hc2 hsep2
      have hlen : (DSeparationJudgement.create p.1 p.2 c true).conditions.length =
          c.length := by
        rw [create_conditions_length, (condSets_nodup g p.1 p.2 mc c hcmem).dedup]
      rw [hlen]
      refine find?_flatMap_sizes
        (fun r => List.sublistsLen r (g.nodeVars.filter (fun v => v ≠ p.1 ∧ v ≠ p.2)))
        (fun c => dsepSeparated g p.1 p.2 c)
        (List.range ((mc.getD (g.nodeVars.filter
          (fun v => v ≠ p.1 ∧ v ≠ p.2)).length) + 1))
        (List.pairwise_lt_range _)
        (fun r _ x hx => (List.mem_sublistsLen.mp hx).2)
        c hfind c2 hc2 hsep2
  · intro out hout
    rw [d_separations_eq] at hout
    injection hout with hout'
    subst hout'
    intro p hp c hc hsep
    refine List.mem_flatMap.mpr ⟨p, hp, ?_⟩
    unfold scanPairPure
    rw [if_pos rfl]
    exact List.mem_map.mpr ⟨c, List.mem_filter.mpr ⟨hc, by simp [hsep]⟩, rfl⟩

/-- C6 witness: the first-hit theorem applied to the collider graph, whose
enumeration returns exactly one judgement for the pair (A, B). -/
theorem C6_first_hit_enumeration_witness :
    (([(⟨⟨"A"⟩, ⟨"B"⟩, [], true⟩ : DSeparationJudgement)]).Pairwise
        (fun j1 j2 => _judgement_grouper j1 ≠ _judgement_grouper j2) ∧
      ∀ j ∈ [(⟨⟨"A"⟩, ⟨"B"⟩, [], true⟩ : DSeparationJudgement)], j.separated = true ∧
        ∃ a b c, (a, b) ∈ nodePairs colliderExample.nodeVars ∧
          j = DSeparationJudgement.create a b c true ∧ c ∈ condSets colliderExample a b none ∧
          dsepSeparated colliderExample a b c = true ∧
          ∀ c2 ∈ condSets colliderExample a b none,
            dsepSeparated colliderExample a b c2 = true →
              j.conditions.length ≤ c2.length) ∧
    (∀ p ∈ nodePairs colliderExample.nodeVars, ∀ c ∈ condSets colliderExample p.1 p.2 none,
      dsepSeparated colliderExample p.1 p.2 c = true →
        DSeparationJudgement.create p.1 p.2 c true ∈
          [(⟨⟨"A"⟩, ⟨"B"⟩, [], true⟩ : DSeparationJudgement)]) :=
  ⟨(C6_first_hit_enumeration colliderExample none).1
      [⟨⟨"A"⟩, ⟨"B"⟩, [], true⟩] (by decide),
   (C6_first_hit_enumeration colliderExample none).2
      [⟨⟨"A"⟩, ⟨"B"⟩, [], true⟩] (by decide)⟩

end Y0
